import Mathlib

/-!
# Confetti-Box: shallow embedding and verification

This file embeds the storage and upload core of the Confetti-Box file
hosting service (the `Mochibase` metadata index, the `Chunkbase` staging
registry, the reaper sweep `clean_database`, and the upload endpoints of
`lib.rs`) as executable Lean definitions, and proves or refutes the
specification claims about them.

Rust `HashMap K V` values are modelled as association lists
`List (K × V)` with no duplicate keys (the well-formedness predicates
below carry the no-duplicates facts where a proof needs them), and Rust
`HashSet V` values as duplicate-free lists `List V`.  Timestamps
(`chrono::DateTime<Utc>`) are modelled as integers, file contents and
the filesystem as explicit data threaded through the functions.
-/

namespace ConfettiBox

/-! ## Association list helpers (model of `HashMap`) -/

/-- Lookup in an association list: model of `HashMap::get`. -/
def getA {K V : Type} [DecidableEq K] (l : List (K × V)) (k : K) : Option V :=
  match l with
  | [] => none
  | (k2, v) :: rest => if k2 = k then some v else getA rest k

/-- Insert-or-replace in an association list: model of `HashMap::insert`. -/
def setA {K V : Type} [DecidableEq K] (l : List (K × V)) (k : K) (v : V) :
    List (K × V) :=
  match l with
  | [] => [(k, v)]
  | (k2, v2) :: rest => if k2 = k then (k, v) :: rest else (k2, v2) :: setA rest k v

/-- Remove a key from an association list: model of `HashMap::remove`. -/
def removeA {K V : Type} [DecidableEq K] (l : List (K × V)) (k : K) :
    List (K × V) :=
  match l with
  | [] => []
  | (k2, v2) :: rest => if k2 = k then rest else (k2, v2) :: removeA rest k

/-- The keys of an association list. -/
def keysA {K V : Type} (l : List (K × V)) : List K := l.map Prod.fst

/-! ## Core data model (`database.rs`) -/

/-- Model of `Mmid`: a newtype over a string.  The code's `TryFrom`
validation (length 8, ASCII alphanumeric) is modelled by `mmidTryFrom`. -/
structure Mmid where
  val : String
deriving DecidableEq, Repr

/-- Model of `Mmid::try_from(&str)`: length must be 8 and every
character ASCII alphanumeric. -/
def mmidTryFrom (s : String) : Option Mmid :=
  if s.length ≠ 8 then none
  else if s.toList.any (fun c => ¬ c.isAlphanum) then none
  else some ⟨s⟩

/-- Model of `blake3::Hash`: 32 raw bytes. -/
def Hash : Type := { l : List (Fin 256) // l.length = 32 }

instance : DecidableEq Hash := fun a b => by
  unfold Hash; infer_instance

/-- Model of `MochiFile`, the durable entry record.  Timestamps are
modelled as integers (total order is all the code uses). -/
structure MochiFile where
  mmid : Mmid
  name : String
  mime_type : String
  hash : Hash
  upload_datetime : Int
  expiry_datetime : Int
deriving DecidableEq

/-- Model of `MochiFile::is_expired`, with `Utc::now()` passed in
explicitly: `now > expiry_datetime`. -/
def MochiFile.is_expired (f : MochiFile) (now : Int) : Bool :=
  decide (now > f.expiry_datetime)

/-- Model of `Mochibase`: the path it was opened from, the
hash → set-of-MMIDs reference map, and the MMID → entry map. -/
structure Mochibase where
  path : String
  hashes : List (Hash × List Mmid)
  entries : List (Mmid × MochiFile)
deriving DecidableEq

/-- Model of `Mochibase::insert`.  Mirrors the source exactly: the
duplicate check is `HashSet::insert` on the set for `entry.hash` (so an
MMID that exists in `entries` under a *different* hash is not detected);
`entries.insert` then overwrites unconditionally. -/
def Mochibase.insert (db : Mochibase) (mmid : Mmid) (entry : MochiFile) :
    Mochibase × Bool :=
  match getA db.hashes entry.hash with
  | some s =>
    if mmid ∈ s then (db, false)
    else
      ({ db with
         hashes := setA db.hashes entry.hash (s ++ [mmid]),
         entries := setA db.entries mmid entry }, true)
  | none =>
      ({ db with
         hashes := setA db.hashes entry.hash [mmid],
         entries := setA db.entries mmid entry }, true)

/-- Model of `Mochibase::remove_mmid`.  Removes the entry and removes
the MMID from the set for the entry's hash; the set is left in place
(possibly empty) under its key. -/
def Mochibase.remove_mmid (db : Mochibase) (mmid : Mmid) : Mochibase × Bool :=
  match getA db.entries mmid with
  | none => (db, false)
  | some e =>
    let db1 := { db with entries := removeA db.entries mmid }
    match getA db1.hashes e.hash with
    | some s =>
      ({ db1 with hashes := setA db1.hashes e.hash (s.filter (· ≠ mmid)) }, true)
    | none => (db1, true)

/-- Model of `Mochibase::remove_hash`: removes the key only when its
set is empty. -/
def Mochibase.remove_hash (db : Mochibase) (h : Hash) : Mochibase × Option Bool :=
  match getA db.hashes h with
  | some s =>
    if s.isEmpty then ({ db with hashes := removeA db.hashes h }, some true)
    else (db, some false)
  | none => (db, none)

/-- Model of `Mochibase::is_hash_empty`. -/
def Mochibase.is_hash_empty (db : Mochibase) (h : Hash) : Option Bool :=
  (getA db.hashes h).map (·.isEmpty)

/-- Model of `Mochibase::get`. -/
def Mochibase.get (db : Mochibase) (mmid : Mmid) : Option MochiFile :=
  getA db.entries mmid

/-- Model of `Mochibase::get_hash`. -/
def Mochibase.get_hash (db : Mochibase) (h : Hash) : Option (List Mmid) :=
  getA db.hashes h

/-! ## Reaper sweep (`clean_database` in `database.rs`)

The blob directory is modelled as the list of hashes whose blob files
currently exist.  `fs::remove_file` failure (file absent) is logged by
the source and ignored, so the model simply removes the hash when
present. -/

/-- The loop body of `clean_database`: for each `(mmid, hash)` pair,
`remove_mmid`, then if `is_hash_empty` reports an empty set,
`remove_hash` and delete the blob file. -/
def sweepGo (db : Mochibase) (fs : List Hash) :
    List (Mmid × Hash) → Mochibase × List Hash
  | [] => (db, fs)
  | (m, h) :: rest =>
    let db1 := (db.remove_mmid m).1
    if (db1.is_hash_empty h).getD false then
      sweepGo (db1.remove_hash h).1 (fs.filter (· ≠ h)) rest
    else
      sweepGo db1 fs rest

/-- Model of `clean_database`: collect the `(mmid, hash)` pairs of all
expired entries (iterating the values of `entries`, reading each
value's own `mmid` and `hash` fields), then run the removal loop.
The trailing `database.save()` only touches the snapshot file and is
not part of the in-memory state modelled here. -/
def clean_database (db : Mochibase) (fs : List Hash) (now : Int) :
    Mochibase × List Hash :=
  let files_to_remove := db.entries.filterMap
    (fun p => if p.2.is_expired now then some (p.2.mmid, p.2.hash) else none)
  sweepGo db fs files_to_remove

/-! ## Chunk staging (`Chunkbase` in `database.rs`) -/

/-- Model of `uuid::Uuid`: an opaque identifier (generation is external
randomness, passed in by the callers that need it). -/
abbrev Uuid : Type := Nat

/-- Model of `ChunkedInfo`. -/
structure ChunkedInfo where
  name : String
  size : Nat
  expire_duration : Int
  recieved_chunks : List Nat
  path : String
  offset : Nat
deriving DecidableEq

/-- Model of `Chunkbase`: UUID → (timeout deadline, info). -/
structure Chunkbase where
  chunks : List (Uuid × (Int × ChunkedInfo))
deriving DecidableEq

/-- Model of `Chunkbase::get_file`. -/
def Chunkbase.get_file (cb : Chunkbase) (uuid : Uuid) : Option (Int × ChunkedInfo) :=
  getA cb.chunks uuid

/-- Model of `Chunkbase::remove_file`: remove the record, then delete
its staging file (an absent staging file is an `io::Error`, which the
`?` in the source propagates).  The staging directory is modelled as
the list of staging-file paths that exist. -/
def Chunkbase.remove_file (cb : Chunkbase) (sfs : List String) (uuid : Uuid) :
    (Chunkbase × List String) × Except String Bool :=
  match getA cb.chunks uuid with
  | none => ((cb, sfs), .ok false)
  | some item =>
    let cb1 : Chunkbase := ⟨removeA cb.chunks uuid⟩
    if item.2.path ∈ sfs then ((cb1, sfs.filter (· ≠ item.2.path)), .ok true)
    else ((cb1, sfs), .error "No such file or directory")

/-- Model of `Chunkbase::add_recieved_chunk` (`HashSet::insert` on the
received set). -/
def Chunkbase.add_recieved_chunk (cb : Chunkbase) (uuid : Uuid) (chunk : Nat) :
    Chunkbase × Bool :=
  match getA cb.chunks uuid with
  | none => (cb, false)
  | some item =>
    if chunk ∈ item.2.recieved_chunks then (cb, false)
    else
      (⟨setA cb.chunks uuid
        (item.1, { item.2 with recieved_chunks := item.2.recieved_chunks ++ [chunk] })⟩,
       true)

/-- Model of `Chunkbase::extend_timeout`. -/
def Chunkbase.extend_timeout (cb : Chunkbase) (uuid : Uuid) (now timeout : Int) :
    Chunkbase × Bool :=
  match getA cb.chunks uuid with
  | none => (cb, false)
  | some item => (⟨setA cb.chunks uuid (now + timeout, item.2)⟩, true)

/-! ## Settings (`settings.rs`) -/

/-- Model of `DurationSettings` (durations in seconds, as the code's
`TimeDelta` values compare). -/
structure DurationSettings where
  maximum : Int
  allowed : List Int
  restrict_to_allowed : Bool
deriving DecidableEq

/-- Model of the `Settings` fields the upload endpoints read. -/
structure Settings where
  max_filesize : Nat
  chunk_size : Nat
  duration : DurationSettings
deriving DecidableEq

/-! ## Upload endpoints (`lib.rs`) -/

/-- Model of the validation prefix of `chunked_upload_start`: the three
checks, in source order, with the failure message each produces.
`none` means validation passed and the upload is accepted
(`new_file` is called and a success response returned). -/
def chunked_upload_start_validate (st : Settings) (size : Nat) (dur : Int) :
    Option String :=
  if size > st.max_filesize then some "File too large"
  else if st.duration.restrict_to_allowed ∧ dur ∉ st.duration.allowed then
    some "Duration not allowed"
  else if dur > st.duration.maximum then some "Duration too large"
  else none

/-- Model of the validation prefix of `websocket_upload` (identical
checks on the query parameters). -/
def websocket_upload_validate (st : Settings) (size : Nat) (dur : Int) :
    Option String :=
  if size > st.max_filesize then some "File too large"
  else if st.duration.restrict_to_allowed ∧ dur ∉ st.duration.allowed then
    some "Duration not allowed"
  else if dur > st.duration.maximum then some "Duration too large"
  else none

/-- Result of one `chunked_upload_continue` request: the new registry,
the new staging directory, the error (if any), and how many body bytes
were written to the staging file before the request resolved. -/
structure ContinueOut where
  db : Chunkbase
  sfs : List String
  err : Option String
  written : Nat
deriving DecidableEq

/-- The guards of `chunked_upload_continue` once the UUID lookup has
succeeded, in source order: reject a duplicate chunk index; open the
staging file; compute `offset = chunk * chunk_size` and reject it if
beyond the declared size or `max_filesize`; write the body through the
size-capped reader (`chunk_size + 100`); then the two post-write
checks, each of which calls `Chunkbase::remove_file` before erroring;
on success record the chunk and refresh the deadline. -/
def chunked_upload_continue_body (cb : Chunkbase) (sfs : List String)
    (st : Settings) (uuid : Uuid) (chunk : Nat) (bodyLen : Nat) (now : Int)
    (ci : Int × ChunkedInfo) : ContinueOut :=
  if chunk ∈ ci.2.recieved_chunks then ⟨cb, sfs, some "Chunk already uploaded", 0⟩
  else if ci.2.path ∉ sfs then ⟨cb, sfs, some "No such file or directory", 0⟩
  else
    let offset := chunk * st.chunk_size
    if offset > ci.2.size ∨ offset > st.max_filesize then
      ⟨cb, sfs, some "Invalid chunk number for file", 0⟩
    else
      let written := min bodyLen (st.chunk_size + 100)
      let position := offset + written
      if written > st.chunk_size then
        let r := cb.remove_file sfs uuid
        ⟨r.1.1, r.1.2, some "Wrote more than one chunk", written⟩
      else if position > ci.2.size then
        let r := cb.remove_file sfs uuid
        ⟨r.1.1, r.1.2, some "File larger than expected", written⟩
      else
        let cb1 := (cb.add_recieved_chunk uuid chunk).1
        let cb2 := (cb1.extend_timeout uuid now 30).1
        ⟨cb2, sfs, none, written⟩

/-- Model of `chunked_upload_continue`: look up the UUID (an unknown
UUID is an error), then run the guards above. -/
def chunked_upload_continue (cb : Chunkbase) (sfs : List String) (st : Settings)
    (uuid : Uuid) (chunk : Nat) (bodyLen : Nat) (now : Int) : ContinueOut :=
  match getA cb.chunks uuid with
  | none => ⟨cb, sfs, some "Invalid UUID", 0⟩
  | some ci => chunked_upload_continue_body cb sfs st uuid chunk bodyLen now ci

deriving instance DecidableEq for Except

/-- Result of finishing an upload (chunked finish or WebSocket final
phase): the new index, the new staging registry and directory, the blob
directory, and the response. -/
structure FinishOut where
  mainDb : Mochibase
  chunkDb : Chunkbase
  sfs : List (String × List (Fin 256))
  bs : List Hash
  response : Except String MochiFile
deriving DecidableEq

/-- The final phase of `chunked_upload_finish`, once the UUID lookup
and the staging-file read have succeeded: hash the content, promote or
dedup the blob, build the entry, do one `insert` (result discarded),
and answer with the constructed entry. -/
def chunked_upload_finish_body (hashFn : List (Fin 256) → Hash)
    (mimeFn : List (Fin 256) → String) (mainDb : Mochibase) (cb : Chunkbase)
    (sfs : List (String × List (Fin 256))) (bs : List Hash) (uuid : Uuid)
    (mmid : Mmid) (now : Int) (ci : Int × ChunkedInfo)
    (content : List (Fin 256)) : FinishOut :=
  let hash := hashFn content
  let cb2 : Chunkbase := ⟨removeA cb.chunks uuid⟩
  let sfs2 := removeA sfs ci.2.path
  let bs2 := if mainDb.get_hash hash = none then bs ++ [hash] else bs
  let file : MochiFile :=
    ⟨mmid, ci.2.name, mimeFn content, hash, now, now + ci.2.expire_duration⟩
  let ins := mainDb.insert mmid file
  ⟨ins.1, cb2, sfs2, bs2, .ok file⟩

/-- Model of `chunked_upload_finish`.  The staging directory here maps
paths to contents (the hash is computed over the staged bytes); the
blob directory is the list of blob hashes present.  The content hash
(`blake3`) and the MIME sniffer (`file_format`) are external libraries,
passed in as opaque functions; the freshly generated random MMID is
passed in explicitly.  A single `insert` is performed and its boolean
result is discarded, exactly as in the source. -/
def chunked_upload_finish_run (hashFn : List (Fin 256) → Hash)
    (mimeFn : List (Fin 256) → String) (mainDb : Mochibase) (cb : Chunkbase)
    (sfs : List (String × List (Fin 256))) (bs : List Hash) (uuid : Uuid)
    (mmid : Mmid) (now : Int) : FinishOut :=
  match getA cb.chunks uuid with
  | none => ⟨mainDb, cb, sfs, bs, .error "Invalid UUID"⟩
  | some ci =>
    match getA sfs ci.2.path with
    | none => ⟨mainDb, cb, sfs, bs, .error "File does not exist"⟩
    | some content =>
      chunked_upload_finish_body hashFn mimeFn mainDb cb sfs bs uuid mmid now
        ci content

/-- The WebSocket receive loop of `websocket_upload`: fold over the
binary frames, stopping at an empty frame (end-of-stream) or when the
running byte count exceeds the declared size or `max_filesize` (the
overrunning frame is counted in `offset` but not hashed or written).
Returns the final offset and the bytes that were hashed and written. -/
def wsLoop (size maxFilesize : Nat) :
    List (List (Fin 256)) → Nat → List (Fin 256) → Nat × List (Fin 256)
  | [], offset, acc => (offset, acc)
  | f :: rest, offset, acc =>
    if f.isEmpty then (offset, acc)
    else
      let offset2 := offset + f.length
      if offset2 > size ∨ offset2 > maxFilesize then (offset2, acc)
      else wsLoop size maxFilesize rest offset2 (acc ++ f)

/-- Result of the body of a `websocket_upload` channel. -/
structure WsOut where
  mainDb : Mochibase
  bs : List Hash
  insertResult : Bool
  sentEntry : Option MochiFile
  storedBytes : List (Fin 256)
deriving DecidableEq

/-- Model of the `websocket_upload` channel body, after validation and
`new_file` have succeeded: run the receive loop, then — regardless of
how the loop ended — finalize the hash over the bytes received so far,
promote (or dedup) the staging file into the blob directory, build the
entry, `insert` it (result discarded), and send the entry JSON as a
text frame. -/
def websocket_upload_run (hashFn : List (Fin 256) → Hash)
    (mimeFn : List (Fin 256) → String) (mainDb : Mochibase) (bs : List Hash)
    (info : ChunkedInfo) (maxFilesize : Nat) (frames : List (List (Fin 256)))
    (mmid : Mmid) (now : Int) : WsOut :=
  let r := wsLoop info.size maxFilesize frames 0 []
  let hash := hashFn r.2
  let bs2 := if mainDb.get_hash hash = none then bs ++ [hash] else bs
  let file : MochiFile :=
    ⟨mmid, info.name, mimeFn r.2, hash, now, now + info.expire_duration⟩
  let ins := mainDb.insert mmid file
  ⟨ins.1, bs2, ins.2, some file, r.2⟩

/-! ## Read-side endpoints (`endpoints.rs`) -/

/-- Model of the `/info/<mmid>` endpoint `file_info`: validate the
MMID string, then `Mochibase::get`.  No expiry check appears. -/
def file_info (db : Mochibase) (mmidStr : String) : Option MochiFile :=
  (mmidTryFrom mmidStr).bind db.get

/-- Model of the `/f/<mmid>/<name>` endpoint `lookup_mmid_name`:
validate the MMID string, `Mochibase::get`, require the name to match
the entry, then open the blob file by hash (modelled by membership in
the blob directory).  The response is the content type and the opened
blob.  No expiry check appears. -/
def lookup_mmid_name (db : Mochibase) (fileDir : List Hash)
    (mmidStr name : String) : Option (String × Hash) :=
  (mmidTryFrom mmidStr).bind fun m =>
  (db.get m).bind fun e =>
  if name ≠ e.name then none
  else if e.hash ∈ fileDir then some (e.mime_type, e.hash)
  else none

/-! ## Persistence (`Mochibase::save` / `Mochibase::open`)

`save` serializes the whole index with `ciborium` (hashes in the entry
records go through `DisplayFromStr`, i.e. lowercase hexadecimal) into
`<path with extension replaced by "bkp">`, then renames that file over
the primary path.  `open` reads the file at the path and decodes it.
The self-describing encoded value is modelled by the `CVal` tree below
(the byte-level CBOR framing and the LZ4 compression are external,
lossless library layers); the filesystem is a path → value map. -/

/-- A self-describing encoded value (model of the CBOR value a
`ciborium` round trip goes through). -/
inductive CVal where
  | int (n : Int)
  | text (s : String)
  | bytes (l : List (Fin 256))
  | arr (l : List CVal)
  | map (l : List (CVal × CVal))

/-- Lowercase hexadecimal digit, as `blake3::Hash`'s `Display` uses. -/
def hexDigit (n : Fin 16) : Char :=
  if n.val < 10 then Char.ofNat (48 + n.val) else Char.ofNat (87 + n.val)

/-- The two lowercase hex digits of one byte. -/
def hexOfByte (b : Fin 256) : List Char :=
  [hexDigit ⟨b.val / 16, by omega⟩, hexDigit ⟨b.val % 16, by omega⟩]

/-- Lowercase hex rendering of a byte string (`Display` of a hash). -/
def hexOfBytes (l : List (Fin 256)) : String :=
  ⟨(l.map hexOfByte).flatten⟩

/-- Value of one hex digit character (either case, as `from_hex`
accepts). -/
def hexDigitVal (c : Char) : Option (Fin 16) :=
  if h : 48 ≤ c.toNat ∧ c.toNat ≤ 57 then some ⟨c.toNat - 48, by omega⟩
  else if h2 : 97 ≤ c.toNat ∧ c.toNat ≤ 102 then some ⟨c.toNat - 87, by omega⟩
  else if h3 : 65 ≤ c.toNat ∧ c.toNat ≤ 70 then some ⟨c.toNat - 55, by omega⟩
  else none

/-- Parse a hex character string back into bytes (model of
`blake3::Hash::from_str`). -/
def bytesOfHexChars : List Char → Option (List (Fin 256))
  | [] => some []
  | c1 :: c2 :: rest => do
    let hi ← hexDigitVal c1
    let lo ← hexDigitVal c2
    let r ← bytesOfHexChars rest
    pure (⟨16 * hi.val + lo.val, by omega⟩ :: r)
  | [_] => none

/-- Serialize one `MochiFile` (field names as in the struct; the hash
field goes through `DisplayFromStr`, so it is stored as hex text). -/
def serFile (f : MochiFile) : CVal :=
  .map [(.text "mmid", .text f.mmid.val),
        (.text "name", .text f.name),
        (.text "mime_type", .text f.mime_type),
        (.text "hash", .text (hexOfBytes f.hash.val)),
        (.text "upload_datetime", .int f.upload_datetime),
        (.text "expiry_datetime", .int f.expiry_datetime)]

/-- Decode one `MochiFile`. -/
def deserFile : CVal → Option MochiFile
  | .map [(.text "mmid", .text m),
          (.text "name", .text n),
          (.text "mime_type", .text mt),
          (.text "hash", .text hx),
          (.text "upload_datetime", .int u),
          (.text "expiry_datetime", .int e)] =>
    match bytesOfHexChars hx.toList with
    | some bl =>
      if h : bl.length = 32 then some ⟨⟨m⟩, n, mt, ⟨bl, h⟩, u, e⟩ else none
    | none => none
  | _ => none

/-- Decode one MMID (a serde newtype: stored as its inner string). -/
def deserMmid : CVal → Option Mmid
  | .text s => some ⟨s⟩
  | _ => none

/-- Decode one binding of the `hashes` map (raw 32 hash bytes mapped to
the list of MMIDs). -/
def deserHashPair : CVal × CVal → Option (Hash × List Mmid)
  | (.bytes bl, .arr ml) =>
    if h : bl.length = 32 then
      (ml.mapM deserMmid).map (fun ms => (⟨bl, h⟩, ms))
    else none
  | _ => none

/-- Decode one binding of the `entries` map. -/
def deserEntryPair : CVal × CVal → Option (Mmid × MochiFile)
  | (.text s, v) => (deserFile v).map (fun f => (⟨s⟩, f))
  | _ => none

/-- Serialize a whole `Mochibase` (its three fields, in declaration
order). -/
def serBase (db : Mochibase) : CVal :=
  .map [(.text "path", .text db.path),
        (.text "hashes",
          .map (db.hashes.map
            (fun p => (.bytes p.1.val, .arr (p.2.map (fun m => .text m.val)))))),
        (.text "entries",
          .map (db.entries.map (fun p => (.text p.1.val, serFile p.2))))]

/-- Decode a whole `Mochibase`. -/
def deserBase : CVal → Option Mochibase
  | .map [(.text "path", .text p), (.text "hashes", .map hl),
          (.text "entries", .map el)] => do
    let hs ← hl.mapM deserHashPair
    let es ← el.mapM deserEntryPair
    pure ⟨p, hs, es⟩
  | _ => none

/-- Model of `Path::with_extension`: replace the extension of the final
path component (or append one if it has none). -/
def withExtension (p ext : String) : String :=
  let rev := p.toList.reverse
  let fname := rev.takeWhile (· ≠ '/')
  if '.' ∈ fname then
    ⟨(rev.drop ((fname.takeWhile (· ≠ '.')).length + 1)).reverse
      ++ ('.' :: ext.toList)⟩
  else ⟨p.toList ++ ('.' :: ext.toList)⟩

/-- Model of `Mochibase::save`: write the serialized index to the
`.bkp` sibling, then `fs::rename` it over the primary path. -/
def Mochibase.save (db : Mochibase) (fs : List (String × CVal)) :
    List (String × CVal) :=
  let bkp := withExtension db.path "bkp"
  let fs1 := setA fs bkp (serBase db)
  match getA fs1 bkp with
  | some v => setA (removeA fs1 bkp) db.path v
  | none => fs1

/-- Model of `Mochibase::open`: read the file at the path and decode
it (a missing file or a decode failure is an error). -/
def Mochibase.openBase (fs : List (String × CVal)) (p : String) :
    Option Mochibase :=
  (getA fs p).bind deserBase

/-! ## Well-formedness of the index

The representation invariants of the model (no duplicate `HashMap`
keys, no duplicate `HashSet` elements) together with the semantic
invariants the code maintains: every entry's key equals its `mmid`
field, every entry's MMID is in the refs set for its hash (I1), and
every MMID in a refs set resolves in `entries` with that hash (I2).
Refs sets are *not* required to be non-empty (see the `remove_mmid`
theorems below). -/

def DbWF (db : Mochibase) : Prop :=
  (keysA db.entries).Nodup ∧
  (keysA db.hashes).Nodup ∧
  (∀ p ∈ db.hashes, p.2.Nodup) ∧
  (∀ p ∈ db.entries, p.2.mmid = p.1) ∧
  (∀ p ∈ db.entries, ∃ s, getA db.hashes p.2.hash = some s ∧ p.1 ∈ s) ∧
  (∀ p ∈ db.hashes, ∀ m ∈ p.2, ∃ e, getA db.entries m = some e ∧ e.hash = p.1)

/-- No refs set is empty (true between reaper sweeps; `remove_mmid`
breaks it transiently). -/
def NoEmptySets (db : Mochibase) : Prop :=
  ∀ p ∈ db.hashes, p.2 ≠ []

/-- Decidability of an existential over an `Option` lookup, for
evaluating `DbWF` on concrete databases. -/
instance optExDecidable {α : Type} (o : Option α) (P : α → Prop)
    [DecidablePred P] : Decidable (∃ e, o = some e ∧ P e) :=
  match o with
  | none => .isFalse (by simp)
  | some e =>
    if h : P e then .isTrue ⟨e, rfl, h⟩ else .isFalse (by simp [h])

instance dbWFDecidable (db : Mochibase) : Decidable (DbWF db) := by
  unfold DbWF; infer_instance

instance noEmptySetsDecidable (db : Mochibase) : Decidable (NoEmptySets db) := by
  unfold NoEmptySets; infer_instance


/-! ## Concrete fixtures

Small concrete states used to witness the theorems and to exhibit
counterexamples. -/

/-- A hash whose 32 bytes all equal `b`. -/
def byteHash (b : Fin 256) : Hash := ⟨List.replicate 32 b, by simp⟩

/-- A content-hash function for concrete runs (the endpoints take the
hash function as an opaque parameter). -/
def constHashFn (l : List (Fin 256)) : Hash :=
  byteHash ⟨l.length % 256, Nat.mod_lt _ (by omega)⟩

/-- A content-hash function that collides everything onto `byteHash 0`. -/
def zeroHashFn (_ : List (Fin 256)) : Hash := byteHash 0

/-- A constant MIME sniffer for concrete runs. -/
def constMimeFn (_ : List (Fin 256)) : String := "application/octet-stream"

def mA : Mmid := ⟨"aaaaaaaa"⟩

def mB : Mmid := ⟨"bbbbbbbb"⟩

def mC : Mmid := ⟨"cccccccc"⟩

/-- Entry for `mA`, hash `byteHash 0`, expires at time 50. -/
def fileA : MochiFile := ⟨mA, "a.txt", "text/plain", byteHash 0, 0, 50⟩

/-- Entry for `mB`, same hash as `fileA`, expires at time 1000. -/
def fileB : MochiFile := ⟨mB, "b.txt", "text/plain", byteHash 0, 0, 1000⟩

/-- Entry for `mC`, hash `byteHash 1`, expires at time 20. -/
def fileC : MochiFile := ⟨mC, "c.txt", "text/plain", byteHash 1, 0, 20⟩

/-- Entry with `mA`'s MMID but a different hash than `fileA`. -/
def fileA2 : MochiFile := ⟨mA, "a2.txt", "text/plain", byteHash 1, 0, 50⟩

/-- Index holding only `fileA`. -/
def dbSmall : Mochibase := ⟨"db", [(byteHash 0, [mA])], [(mA, fileA)]⟩

/-- Index holding `fileA` and `fileB` (same hash) and `fileC`. -/
def dbTwo : Mochibase :=
  ⟨"db", [(byteHash 0, [mA, mB]), (byteHash 1, [mC])],
   [(mA, fileA), (mB, fileB), (mC, fileC)]⟩

/-- Settings with `max_filesize` 100 and `chunk_size` 5. -/
def stS : Settings := ⟨100, 5, ⟨3600, [60, 3600], false⟩⟩

/-- A staged upload of declared size 10 with no chunks received. -/
def ciA : ChunkedInfo := ⟨"f.bin", 10, 60, [], "/tmp/u3", 0⟩

/-- A staged upload of declared size 10 with chunk 0 already received. -/
def ciDup : ChunkedInfo := ⟨"f.bin", 10, 60, [0], "/tmp/u3", 0⟩

def cbA : Chunkbase := ⟨[(3, (100, ciA))]⟩

def cbDup : Chunkbase := ⟨[(3, (100, ciDup))]⟩

/-- A staged upload ready to finish. -/
def ciNew : ChunkedInfo := ⟨"new.txt", 4, 60, [], "/tmp/u7", 0⟩

def cbFin : Chunkbase := ⟨[(7, (100, ciNew))]⟩

def sfsFin : List (String × List (Fin 256)) := [("/tmp/u7", [1, 2])]

/-- The entry `chunked_upload_finish` constructs in the `dbSmall`
collision scenario. -/
def fileNew : MochiFile := ⟨mA, "new.txt", "application/octet-stream", byteHash 0, 100, 160⟩

/-- A WebSocket staged upload of declared size 5. -/
def wsInfo : ChunkedInfo := ⟨"big.bin", 5, 60, [], "/tmp/u9", 0⟩

/-! ## Association list lemmas -/

theorem getA_setA_self {K V : Type} [DecidableEq K] (l : List (K × V)) (k : K)
    (v : V) : getA (setA l k v) k = some v := by
  induction l with
  | nil => simp [setA, getA]
  | cons p rest ih =>
    obtain ⟨a, b⟩ := p
    by_cases hp : a = k
    · simp [setA, hp, getA]
    · simp [setA, hp, getA, ih]

theorem getA_setA_ne {K V : Type} [DecidableEq K] (l : List (K × V)) (k k2 : K)
    (v : V) (h : k2 ≠ k) : getA (setA l k v) k2 = getA l k2 := by
  have h2 : ¬ (k = k2) := fun hh => h hh.symm
  induction l with
  | nil => simp [setA, getA, h2]
  | cons p rest ih =>
    obtain ⟨a, b⟩ := p
    by_cases hp : a = k
    · subst hp
      simp [setA, getA, h2]
    · by_cases hp2 : a = k2
      · subst hp2
        simp [setA, getA, hp]
      · simp [setA, getA, hp, hp2, ih]

theorem mem_of_getA_eq_some {K V : Type} [DecidableEq K] {l : List (K × V)}
    {k : K} {v : V} (h : getA l k = some v) : (k, v) ∈ l := by
  induction l with
  | nil => simp [getA] at h
  | cons p rest ih =>
    obtain ⟨a, b⟩ := p
    by_cases hp : a = k
    · subst hp
      simp [getA] at h
      rw [← h]
      exact List.mem_cons_self _ _
    · simp only [getA, if_neg hp] at h
      exact List.mem_cons_of_mem _ (ih h)

theorem getA_removeA_ne {K V : Type} [DecidableEq K] (l : List (K × V))
    (k k2 : K) (h : k2 ≠ k) : getA (removeA l k) k2 = getA l k2 := by
  have h2 : ¬ (k = k2) := fun hh => h hh.symm
  induction l with
  | nil => simp [removeA]
  | cons p rest ih =>
    obtain ⟨a, b⟩ := p
    by_cases hp : a = k
    · subst hp
      simp [removeA, getA, h2]
    · by_cases hp2 : a = k2
      · subst hp2
        simp [removeA, getA, hp]
      · simp [removeA, getA, hp, hp2, ih]

theorem removeA_sublist {K V : Type} [DecidableEq K] (l : List (K × V))
    (k : K) : (removeA l k).Sublist l := by
  induction l with
  | nil => simp [removeA]
  | cons p rest ih =>
    obtain ⟨a, b⟩ := p
    by_cases hp : a = k
    · simp only [removeA, if_pos hp]
      exact List.sublist_cons_self (a, b) rest
    · simpa [removeA, hp] using ih

theorem mem_of_mem_removeA {K V : Type} [DecidableEq K] {l : List (K × V)}
    {k : K} {p : K × V} (h : p ∈ removeA l k) : p ∈ l :=
  (removeA_sublist l k).mem h

theorem keysA_nodup_removeA {K V : Type} [DecidableEq K] {l : List (K × V)}
    (k : K) (h : (keysA l).Nodup) : (keysA (removeA l k)).Nodup :=
  List.Nodup.sublist ((removeA_sublist l k).map Prod.fst) h

theorem getA_removeA_self {K V : Type} [DecidableEq K] {l : List (K × V)}
    (k : K) (h : (keysA l).Nodup) : getA (removeA l k) k = none := by
  induction l with
  | nil => simp [removeA, getA]
  | cons p rest ih =>
    obtain ⟨a, b⟩ := p
    simp only [keysA, List.map_cons, List.nodup_cons] at h
    by_cases hp : a = k
    · subst hp
      cases hg : getA rest a with
      | none => simpa [removeA] using hg
      | some v =>
        exact absurd (List.mem_map_of_mem Prod.fst (mem_of_getA_eq_some hg)) h.1
    · simp only [removeA, if_neg hp, getA, if_neg hp]
      exact ih h.2

theorem getA_eq_some_of_mem {K V : Type} [DecidableEq K] {l : List (K × V)}
    {k : K} {v : V} (hnd : (keysA l).Nodup) (h : (k, v) ∈ l) :
    getA l k = some v := by
  induction l with
  | nil => simp at h
  | cons p rest ih =>
    obtain ⟨a, b⟩ := p
    simp only [keysA, List.map_cons, List.nodup_cons] at hnd
    rcases List.mem_cons.mp h with h1 | h2
    · rw [show a = k from (congrArg Prod.fst h1.symm),
          show b = v from (congrArg Prod.snd h1.symm)]
      simp [getA]
    · by_cases hp : a = k
      · exact absurd (hp ▸ List.mem_map_of_mem Prod.fst h2) hnd.1
      · simp only [getA, if_neg hp]
        exact ih hnd.2 h2

theorem getA_isSome_iff_mem_keysA {K V : Type} [DecidableEq K]
    (l : List (K × V)) (k : K) : (getA l k).isSome ↔ k ∈ keysA l := by
  induction l with
  | nil => simp [getA, keysA]
  | cons p rest ih =>
    obtain ⟨a, b⟩ := p
    by_cases hp : a = k
    · subst hp
      simp [getA, keysA]
    · have hp2 : ¬ (k = a) := fun hh => hp hh.symm
      simp only [getA, if_neg hp, keysA, List.map_cons, List.mem_cons]
      rw [show (keysA rest = rest.map Prod.fst) from rfl] at ih
      simp [hp2, ih]

theorem mem_setA_iff {K V : Type} [DecidableEq K] {l : List (K × V)} {k : K}
    {v : V} {p : K × V} (hnd : (keysA l).Nodup) :
    p ∈ setA l k v ↔ p = (k, v) ∨ (p ∈ l ∧ p.1 ≠ k) := by
  induction l with
  | nil => simp [setA]
  | cons q rest ih =>
    obtain ⟨a, b⟩ := q
    simp only [keysA, List.map_cons, List.nodup_cons] at hnd
    by_cases hq : a = k
    · subst hq
      rw [show setA ((a, b) :: rest) a v = (a, v) :: rest from by simp [setA]]
      constructor
      · intro h
        rcases List.mem_cons.mp h with h1 | h2
        · exact Or.inl h1
        · right
          refine ⟨List.mem_cons_of_mem _ h2, fun hpk => hnd.1 ?_⟩
          rw [← hpk]
          exact List.mem_map_of_mem Prod.fst h2
      · intro h
        rcases h with h1 | ⟨h2, hpk⟩
        · rw [h1]; exact List.mem_cons_self _ _
        · rcases List.mem_cons.mp h2 with h3 | h4
          · exact absurd (congrArg Prod.fst h3) hpk
          · exact List.mem_cons_of_mem _ h4
    · rw [show setA ((a, b) :: rest) k v = (a, b) :: setA rest k v from by
        simp [setA, hq]]
      constructor
      · intro h
        rcases List.mem_cons.mp h with h1 | h2
        · refine Or.inr ⟨by rw [h1]; exact List.mem_cons_self _ _, ?_⟩
          rw [h1]
          exact hq
        · rcases (ih hnd.2).mp h2 with h3 | ⟨h3, h4⟩
          · exact Or.inl h3
          · exact Or.inr ⟨List.mem_cons_of_mem _ h3, h4⟩
      · intro h
        rcases h with h1 | ⟨h2, hpk⟩
        · exact List.mem_cons_of_mem _ ((ih hnd.2).mpr (Or.inl h1))
        · rcases List.mem_cons.mp h2 with h3 | h4
          · rw [h3]; exact List.mem_cons_self _ _
          · exact List.mem_cons_of_mem _ ((ih hnd.2).mpr (Or.inr ⟨h4, hpk⟩))

theorem mem_removeA_iff {K V : Type} [DecidableEq K] {l : List (K × V)} {k : K}
    {p : K × V} (hnd : (keysA l).Nodup) :
    p ∈ removeA l k ↔ p ∈ l ∧ p.1 ≠ k := by
  constructor
  · intro h
    refine ⟨mem_of_mem_removeA h, fun hpk => ?_⟩
    have h2 : getA (removeA l k) p.1 = some p.2 :=
      getA_eq_some_of_mem (keysA_nodup_removeA k hnd) (by simpa using h)
    rw [hpk, getA_removeA_self k hnd] at h2
    exact Option.noConfusion h2
  · rintro ⟨h, hpk⟩
    have h2 : getA (removeA l k) p.1 = getA l p.1 := getA_removeA_ne l k p.1 hpk
    rw [getA_eq_some_of_mem hnd (by simpa using h)] at h2
    simpa using mem_of_getA_eq_some h2

theorem keysA_nodup_setA {K V : Type} [DecidableEq K] {l : List (K × V)}
    (k : K) (v : V) (hnd : (keysA l).Nodup) : (keysA (setA l k v)).Nodup := by
  induction l with
  | nil => simp [setA, keysA]
  | cons p rest ih =>
    obtain ⟨a, b⟩ := p
    simp only [keysA, List.map_cons, List.nodup_cons] at hnd
    by_cases hp : a = k
    · simp only [setA, if_pos hp, keysA, List.map_cons, List.nodup_cons]
      exact ⟨hp ▸ hnd.1, hnd.2⟩
    · simp only [setA, if_neg hp, keysA, List.map_cons, List.nodup_cons]
      refine ⟨fun hmem => ?_, ih hnd.2⟩
      rcases List.mem_map.mp hmem with ⟨q, hq, hq1⟩
      rcases (mem_setA_iff hnd.2).mp hq with h1 | ⟨h1, _⟩
      · exact hp (by rw [← hq1, h1])
      · exact hnd.1 (hq1 ▸ List.mem_map_of_mem Prod.fst h1)


/-! ## Equation lemmas for the index operations

The source functions branch on `HashMap` lookups; these lemmas give the
value of each operation once the lookups are known. -/

theorem insert_eq_of_mem (db : Mochibase) (m : Mmid) (e : MochiFile)
    (s : List Mmid) (hg : getA db.hashes e.hash = some s) (hm : m ∈ s) :
    db.insert m e = (db, false) := by
  unfold Mochibase.insert
  rw [hg]
  show (if m ∈ s then (db, false)
    else (({ db with
              hashes := setA db.hashes e.hash (s ++ [m]),
              entries := setA db.entries m e } : Mochibase), true)) = (db, false)
  rw [if_pos hm]

theorem insert_eq_of_not_mem (db : Mochibase) (m : Mmid) (e : MochiFile)
    (s : List Mmid) (hg : getA db.hashes e.hash = some s) (hm : m ∉ s) :
    db.insert m e =
      ({ db with
         hashes := setA db.hashes e.hash (s ++ [m]),
         entries := setA db.entries m e }, true) := by
  unfold Mochibase.insert
  rw [hg]
  show (if m ∈ s then (db, false)
    else (({ db with
              hashes := setA db.hashes e.hash (s ++ [m]),
              entries := setA db.entries m e } : Mochibase), true)) = _
  rw [if_neg hm]

theorem insert_eq_of_none (db : Mochibase) (m : Mmid) (e : MochiFile)
    (hg : getA db.hashes e.hash = none) :
    db.insert m e =
      ({ db with
         hashes := setA db.hashes e.hash [m],
         entries := setA db.entries m e }, true) := by
  unfold Mochibase.insert
  rw [hg]

theorem remove_mmid_eq_of_none (db : Mochibase) (m : Mmid)
    (hg : getA db.entries m = none) : db.remove_mmid m = (db, false) := by
  unfold Mochibase.remove_mmid
  rw [hg]

theorem remove_mmid_eq_of_some (db : Mochibase) (m : Mmid) (e : MochiFile)
    (s : List Mmid) (he : getA db.entries m = some e)
    (hs : getA db.hashes e.hash = some s) :
    db.remove_mmid m =
      ({ db with
         hashes := setA db.hashes e.hash (s.filter (· ≠ m)),
         entries := removeA db.entries m }, true) := by
  unfold Mochibase.remove_mmid
  rw [he]
  show (match getA db.hashes e.hash with
    | some s2 =>
      (({ path := db.path,
            hashes := setA db.hashes e.hash (s2.filter (· ≠ m)),
            entries := removeA db.entries m } : Mochibase), true)
    | none =>
      (({ path := db.path,
            hashes := db.hashes,
            entries := removeA db.entries m } : Mochibase), true)) = _
  rw [hs]

theorem remove_hash_eq_of_none (db : Mochibase) (h : Hash)
    (hg : getA db.hashes h = none) : db.remove_hash h = (db, none) := by
  unfold Mochibase.remove_hash
  rw [hg]

theorem remove_hash_eq_of_empty (db : Mochibase) (h : Hash)
    (hg : getA db.hashes h = some []) :
    db.remove_hash h =
      ({ db with hashes := removeA db.hashes h }, some true) := by
  unfold Mochibase.remove_hash
  rw [hg]
  rfl

theorem remove_hash_eq_of_nonempty (db : Mochibase) (h : Hash) (x : Mmid)
    (t : List Mmid) (hg : getA db.hashes h = some (x :: t)) :
    db.remove_hash h = (db, some false) := by
  unfold Mochibase.remove_hash
  rw [hg]
  rfl

/-! ## Characterization of `Mochibase::insert` -/

theorem insert_snd_false_iff (db : Mochibase) (m : Mmid) (e : MochiFile) :
    (db.insert m e).2 = false ↔
      ∃ s, getA db.hashes e.hash = some s ∧ m ∈ s := by
  constructor
  · intro h
    cases hg : getA db.hashes e.hash with
    | none =>
      rw [insert_eq_of_none db m e hg] at h
      exact absurd h (by simp)
    | some s =>
      by_cases hm : m ∈ s
      · exact ⟨s, rfl, hm⟩
      · rw [insert_eq_of_not_mem db m e s hg hm] at h
        exact absurd h (by simp)
  · rintro ⟨s, hg, hm⟩
    rw [insert_eq_of_mem db m e s hg hm]

theorem insert_false_unchanged (db : Mochibase) (m : Mmid) (e : MochiFile)
    (h : (db.insert m e).2 = false) : (db.insert m e).1 = db := by
  obtain ⟨s, hg, hm⟩ := (insert_snd_false_iff db m e).mp h
  rw [insert_eq_of_mem db m e s hg hm]

theorem insert_true_get (db : Mochibase) (m : Mmid) (e : MochiFile)
    (h : (db.insert m e).2 = true) :
    getA (db.insert m e).1.entries m = some e ∧
      ∃ s, getA (db.insert m e).1.hashes e.hash = some s ∧ m ∈ s := by
  cases hg : getA db.hashes e.hash with
  | none =>
    rw [insert_eq_of_none db m e hg]
    refine ⟨getA_setA_self _ _ _, [m], ?_, by simp⟩
    exact getA_setA_self _ _ _
  | some s =>
    by_cases hm : m ∈ s
    · rw [insert_eq_of_mem db m e s hg hm] at h
      exact absurd h (by simp)
    · rw [insert_eq_of_not_mem db m e s hg hm]
      refine ⟨getA_setA_self _ _ _, s ++ [m], ?_, by simp⟩
      exact getA_setA_self _ _ _

/-- **C2** (corrected).  `Mochibase::insert(mmid, entry)` returns
`false` iff `mmid` is already a member of the refs set for
`entry.hash` — an entry with the same MMID under a *different* hash is
not detected (it is silently overwritten).  When it returns `false`
the index is unchanged; when it returns `true`, `entries` afterwards
maps the MMID to the inserted entry and `hashes[entry.hash]` contains
the MMID. -/
theorem insert_spec (db : Mochibase) (m : Mmid) (e : MochiFile) :
    ((db.insert m e).2 = false ↔
      ∃ s, getA db.hashes e.hash = some s ∧ m ∈ s)
    ∧ ((db.insert m e).2 = false → (db.insert m e).1 = db)
    ∧ ((db.insert m e).2 = true →
        getA (db.insert m e).1.entries m = some e ∧
          ∃ s, getA (db.insert m e).1.hashes e.hash = some s ∧ m ∈ s) :=
  ⟨insert_snd_false_iff db m e, insert_false_unchanged db m e,
   insert_true_get db m e⟩

/-- **C2** witness: a concrete run through `insert_spec` (duplicate
insert of `fileA` into `dbSmall` returns `false` and leaves the index
unchanged; the fresh insert into the empty index returns `true` and is
found afterwards). -/
theorem insert_spec_witness :
    (dbSmall.insert mA fileA).1 = dbSmall ∧
      getA ((⟨"db", [], []⟩ : Mochibase).insert mA fileA).1.entries mA =
        some fileA :=
  ⟨(insert_spec dbSmall mA fileA).2.1 (by decide),
   ((insert_spec ⟨"db", [], []⟩ mA fileA).2.2 (by decide)).1⟩

/-- **C2** counterexample: `dbSmall.entries` already contains an entry
under `mA` (namely `fileA`, hash `byteHash 0`), yet inserting `fileA2`
(same MMID, hash `byteHash 1`) returns `true`, not `false` — so
"returns false iff an entry with that MMID already exists in
`entries` (regardless of which hash)" is false on the code. -/
theorem insert_claim_counterexample :
    ¬ (((dbSmall.insert mA fileA2).2 = false) ↔
        (getA dbSmall.entries mA).isSome = true) := by
  decide



/-! ## Characterization of `chunked_upload_continue` -/

theorem continue_eq_of_unknown (cb : Chunkbase) (sfs : List String)
    (st : Settings) (uuid : Uuid) (chunk bodyLen : Nat) (now : Int)
    (hg : getA cb.chunks uuid = none) :
    chunked_upload_continue cb sfs st uuid chunk bodyLen now =
      ⟨cb, sfs, some "Invalid UUID", 0⟩ := by
  unfold chunked_upload_continue
  rw [hg]

theorem continue_eq_of_known (cb : Chunkbase) (sfs : List String)
    (st : Settings) (uuid : Uuid) (chunk bodyLen : Nat) (now : Int)
    (ci : Int × ChunkedInfo) (hg : getA cb.chunks uuid = some ci) :
    chunked_upload_continue cb sfs st uuid chunk bodyLen now =
      chunked_upload_continue_body cb sfs st uuid chunk bodyLen now ci := by
  unfold chunked_upload_continue
  rw [hg]

theorem remove_file_eq_of_found (cb : Chunkbase) (sfs : List String)
    (uuid : Uuid) (ci : Int × ChunkedInfo) (hg : getA cb.chunks uuid = some ci)
    (hp : ci.2.path ∈ sfs) :
    cb.remove_file sfs uuid =
      ((⟨removeA cb.chunks uuid⟩, sfs.filter (· ≠ ci.2.path)), .ok true) := by
  unfold Chunkbase.remove_file
  rw [hg]
  show (if ci.2.path ∈ sfs then
      (((⟨removeA cb.chunks uuid⟩ : Chunkbase), sfs.filter (· ≠ ci.2.path)),
        Except.ok true)
    else (((⟨removeA cb.chunks uuid⟩ : Chunkbase), sfs),
        Except.error "No such file or directory")) = _
  rw [if_pos hp]

/-- Full guard characterization of one `chunked_upload_continue`
request: which guard fires, and what each does to the registry and the
staging directory. -/
theorem chunked_upload_continue_guards (cb : Chunkbase) (sfs : List String)
    (st : Settings) (uuid : Uuid) (chunk bodyLen : Nat) (now : Int) :
    (getA cb.chunks uuid = none →
      chunked_upload_continue cb sfs st uuid chunk bodyLen now =
        ⟨cb, sfs, some "Invalid UUID", 0⟩)
    ∧ (∀ ci, getA cb.chunks uuid = some ci → chunk ∈ ci.2.recieved_chunks →
        chunked_upload_continue cb sfs st uuid chunk bodyLen now =
          ⟨cb, sfs, some "Chunk already uploaded", 0⟩)
    ∧ (∀ ci, getA cb.chunks uuid = some ci → chunk ∉ ci.2.recieved_chunks →
        ci.2.path ∈ sfs →
        (chunk * st.chunk_size > ci.2.size ∨
          chunk * st.chunk_size > st.max_filesize) →
        chunked_upload_continue cb sfs st uuid chunk bodyLen now =
          ⟨cb, sfs, some "Invalid chunk number for file", 0⟩)
    ∧ (∀ ci, getA cb.chunks uuid = some ci → chunk ∉ ci.2.recieved_chunks →
        ci.2.path ∈ sfs →
        chunk * st.chunk_size ≤ ci.2.size →
        chunk * st.chunk_size ≤ st.max_filesize →
        (min bodyLen (st.chunk_size + 100) > st.chunk_size ∨
          chunk * st.chunk_size + min bodyLen (st.chunk_size + 100) > ci.2.size) →
        chunked_upload_continue cb sfs st uuid chunk bodyLen now =
          ⟨⟨removeA cb.chunks uuid⟩, sfs.filter (· ≠ ci.2.path),
            some (if min bodyLen (st.chunk_size + 100) > st.chunk_size then
              "Wrote more than one chunk" else "File larger than expected"),
            min bodyLen (st.chunk_size + 100)⟩)
    ∧ (∀ ci, getA cb.chunks uuid = some ci → chunk ∉ ci.2.recieved_chunks →
        ci.2.path ∈ sfs →
        chunk * st.chunk_size ≤ ci.2.size →
        chunk * st.chunk_size ≤ st.max_filesize →
        min bodyLen (st.chunk_size + 100) ≤ st.chunk_size →
        chunk * st.chunk_size + min bodyLen (st.chunk_size + 100) ≤ ci.2.size →
        (chunked_upload_continue cb sfs st uuid chunk bodyLen now).err = none ∧
        (chunked_upload_continue cb sfs st uuid chunk bodyLen now).written =
          min bodyLen (st.chunk_size + 100)) := by
  refine ⟨fun hg => continue_eq_of_unknown _ _ _ _ _ _ _ hg, ?_, ?_, ?_, ?_⟩
  · intro ci hg hdup
    rw [continue_eq_of_known cb sfs st uuid chunk bodyLen now ci hg]
    simp [chunked_upload_continue_body, hdup]
  · intro ci hg hdup hp hoff
    rw [continue_eq_of_known cb sfs st uuid chunk bodyLen now ci hg]
    simp [chunked_upload_continue_body, hdup, hp, hoff]
  · intro ci hg hdup hp hs1 hs2 hviol
    rw [continue_eq_of_known cb sfs st uuid chunk bodyLen now ci hg]
    have hoff : ¬(chunk * st.chunk_size > ci.2.size ∨
        chunk * st.chunk_size > st.max_filesize) := by omega
    by_cases hw : min bodyLen (st.chunk_size + 100) > st.chunk_size
    · simp [chunked_upload_continue_body, hdup, hp, hoff, hw,
        remove_file_eq_of_found cb sfs uuid ci hg hp]
    · have hpos : chunk * st.chunk_size + min bodyLen (st.chunk_size + 100) >
          ci.2.size := by omega
      simp [chunked_upload_continue_body, hdup, hp, hoff, hw, hpos,
        remove_file_eq_of_found cb sfs uuid ci hg hp]
  · intro ci hg hdup hp hs1 hs2 hw hpos
    rw [continue_eq_of_known cb sfs st uuid chunk bodyLen now ci hg]
    have hoff : ¬(chunk * st.chunk_size > ci.2.size ∨
        chunk * st.chunk_size > st.max_filesize) := by omega
    have hw2 : ¬(min bodyLen (st.chunk_size + 100) > st.chunk_size) := by omega
    have hpos2 : ¬(chunk * st.chunk_size + min bodyLen (st.chunk_size + 100) >
        ci.2.size) := by omega
    simp [chunked_upload_continue_body, hdup, hp, hoff, hw2, hpos2]


/-- **C4** (corrected).  Only the two post-write guard violations
(more than `chunk_size` bytes written, resulting position beyond the
declared size) delete the staged upload record and its staging file,
after which a request with the same UUID fails with an unknown-UUID
error.  The pre-write violations — unknown UUID, duplicate chunk
index, computed offset beyond the declared size (or `max_filesize`) —
return an error but leave the registry and the staging directory
unchanged, so a subsequent request with the same UUID is *not* an
unknown-UUID failure. -/
theorem chunked_upload_continue_spec (cb : Chunkbase) (sfs : List String)
    (st : Settings) (uuid : Uuid) (chunk bodyLen : Nat) (now : Int) :
    (getA cb.chunks uuid = none →
      chunked_upload_continue cb sfs st uuid chunk bodyLen now =
        ⟨cb, sfs, some "Invalid UUID", 0⟩)
    ∧ (∀ ci, getA cb.chunks uuid = some ci → chunk ∈ ci.2.recieved_chunks →
        chunked_upload_continue cb sfs st uuid chunk bodyLen now =
          ⟨cb, sfs, some "Chunk already uploaded", 0⟩)
    ∧ (∀ ci, getA cb.chunks uuid = some ci → chunk ∉ ci.2.recieved_chunks →
        ci.2.path ∈ sfs →
        (chunk * st.chunk_size > ci.2.size ∨
          chunk * st.chunk_size > st.max_filesize) →
        chunked_upload_continue cb sfs st uuid chunk bodyLen now =
          ⟨cb, sfs, some "Invalid chunk number for file", 0⟩)
    ∧ (∀ ci, getA cb.chunks uuid = some ci → chunk ∉ ci.2.recieved_chunks →
        ci.2.path ∈ sfs →
        chunk * st.chunk_size ≤ ci.2.size →
        chunk * st.chunk_size ≤ st.max_filesize →
        (min bodyLen (st.chunk_size + 100) > st.chunk_size ∨
          chunk * st.chunk_size + min bodyLen (st.chunk_size + 100) >
            ci.2.size) →
        (keysA cb.chunks).Nodup →
        (chunked_upload_continue cb sfs st uuid chunk bodyLen now).err.isSome ∧
        getA (chunked_upload_continue cb sfs st uuid chunk bodyLen now).db.chunks
          uuid = none ∧
        ci.2.path ∉ (chunked_upload_continue cb sfs st uuid chunk bodyLen now).sfs ∧
        ∀ chunk2 bodyLen2 now2,
          (chunked_upload_continue
            (chunked_upload_continue cb sfs st uuid chunk bodyLen now).db
            (chunked_upload_continue cb sfs st uuid chunk bodyLen now).sfs
            st uuid chunk2 bodyLen2 now2).err = some "Invalid UUID") := by
  obtain ⟨h1, h2, h3, h4, _⟩ :=
    chunked_upload_continue_guards cb sfs st uuid chunk bodyLen now
  refine ⟨h1, h2, h3, ?_⟩
  intro ci hg hdup hp hs1 hs2 hviol hnd
  rw [h4 ci hg hdup hp hs1 hs2 hviol]
  refine ⟨by simp, getA_removeA_self uuid hnd, by simp, ?_⟩
  intro chunk2 bodyLen2 now2
  rw [continue_eq_of_unknown _ _ _ _ _ _ _ (getA_removeA_self uuid hnd)]

/-- **C4** witness: concrete post-write overrun (7 bytes into a
5-byte chunk) deletes the staged upload; the next request with the
same UUID is an unknown-UUID failure. -/
theorem chunked_upload_continue_spec_witness :
    (chunked_upload_continue cbA ["/tmp/u3"] stS 3 1 7 0).err.isSome ∧
    getA (chunked_upload_continue cbA ["/tmp/u3"] stS 3 1 7 0).db.chunks 3 =
      none ∧
    (chunked_upload_continue
      (chunked_upload_continue cbA ["/tmp/u3"] stS 3 1 7 0).db
      (chunked_upload_continue cbA ["/tmp/u3"] stS 3 1 7 0).sfs
      stS 3 0 0 0).err = some "Invalid UUID" := by
  obtain ⟨he, hdb, _, hnext⟩ :=
    (chunked_upload_continue_spec cbA ["/tmp/u3"] stS 3 1 7 0).2.2.2
      (100, ciA) (by decide) (by decide) (by decide) (by decide) (by decide)
      (by decide) (by decide)
  exact ⟨he, hdb, hnext 0 0 0⟩

/-- **C4** counterexample: a duplicate-chunk-index violation (a guard
violation per the claim) does *not* delete the staged upload — the
registry and staging directory are unchanged, and a subsequent request
with the same UUID does not fail with unknown-UUID (here it even
succeeds). -/
theorem chunked_upload_continue_claim_counterexample :
    (chunked_upload_continue cbDup ["/tmp/u3"] stS 3 0 3 0).err =
      some "Chunk already uploaded" ∧
    (chunked_upload_continue cbDup ["/tmp/u3"] stS 3 0 3 0).db = cbDup ∧
    (chunked_upload_continue cbDup ["/tmp/u3"] stS 3 0 3 0).sfs = ["/tmp/u3"] ∧
    (chunked_upload_continue cbDup ["/tmp/u3"] stS 3 1 0 5).err = none := by
  decide

/-- **C7** (corrected).  A chunk index whose start offset *equals* the
declared size passes the offset guard (the source check is strict
`>`): with an empty request body the chunk request succeeds and no
bytes are written; with a non-empty body it fails only the post-write
position check, which deletes the staged upload. -/
theorem empty_tail_chunk_spec (cb : Chunkbase) (sfs : List String)
    (st : Settings) (uuid : Uuid) (chunk : Nat) (ci : Int × ChunkedInfo)
    (now : Int) (hg : getA cb.chunks uuid = some ci)
    (hdup : chunk ∉ ci.2.recieved_chunks) (hp : ci.2.path ∈ sfs)
    (hsz : chunk * st.chunk_size = ci.2.size)
    (hmax : ci.2.size ≤ st.max_filesize) :
    ((chunked_upload_continue cb sfs st uuid chunk 0 now).err = none ∧
     (chunked_upload_continue cb sfs st uuid chunk 0 now).written = 0)
    ∧ (∀ bodyLen, 0 < bodyLen →
        (chunked_upload_continue cb sfs st uuid chunk bodyLen now).err.isSome ∧
        (chunked_upload_continue cb sfs st uuid chunk bodyLen now).db.chunks =
          removeA cb.chunks uuid) := by
  constructor
  · obtain ⟨_, _, _, _, h5⟩ :=
      chunked_upload_continue_guards cb sfs st uuid chunk 0 now
    have h := h5 ci hg hdup hp (by omega) (by omega) (by omega) (by omega)
    exact ⟨h.1, by rw [h.2]; omega⟩
  · intro bodyLen hpos
    obtain ⟨_, _, _, h4, _⟩ :=
      chunked_upload_continue_guards cb sfs st uuid chunk bodyLen now
    have hviol : min bodyLen (st.chunk_size + 100) > st.chunk_size ∨
        chunk * st.chunk_size + min bodyLen (st.chunk_size + 100) >
          ci.2.size := by omega
    rw [h4 ci hg hdup hp (by omega) (by omega) hviol]
    exact ⟨by simp, rfl⟩

/-- **C7** witness: with declared size 10 and chunk size 5, the empty
tail chunk (index 2, offset exactly 10) succeeds with an empty body
and writes nothing; a 3-byte body at the same index instead trips the
post-write check and removes the staged upload. -/
theorem empty_tail_chunk_spec_witness :
    ((chunked_upload_continue cbA ["/tmp/u3"] stS 3 2 0 0).err = none ∧
     (chunked_upload_continue cbA ["/tmp/u3"] stS 3 2 0 0).written = 0) ∧
    ((chunked_upload_continue cbA ["/tmp/u3"] stS 3 2 3 0).err.isSome ∧
     (chunked_upload_continue cbA ["/tmp/u3"] stS 3 2 3 0).db.chunks =
       removeA cbA.chunks 3) := by
  obtain ⟨h1, h2⟩ :=
    empty_tail_chunk_spec cbA ["/tmp/u3"] stS 3 2 (100, ciA) 0 (by decide)
      (by decide) (by decide) (by decide) (by decide)
  exact ⟨h1, h2 3 (by decide)⟩

/-- **C7** counterexample: the empty tail chunk request (offset equals
the declared size, empty body) does *not* fail protocol validation —
it succeeds. -/
theorem empty_tail_chunk_claim_counterexample :
    (chunked_upload_continue cbA ["/tmp/u3"] stS 3 2 0 0).err = none := by
  decide


/-! ## Upload-start validation (C8) -/

/-- **C8** (confirmed).  Both upload-start surfaces (chunked HTTP and
WebSocket) accept a request iff `size ≤ max_filesize`,
`expire_duration ≤ duration.maximum`, and — when
`restrict_to_allowed` is set — the duration is in `duration.allowed`.
Boundary values (`size = max_filesize`, duration `= maximum`) satisfy
the right-hand side, one unit over either bound does not, and every
rejection is a failure response. -/
theorem upload_start_validation :
    (∀ (st : Settings) (size : Nat) (dur : Int),
      chunked_upload_start_validate st size dur = none ↔
        (size ≤ st.max_filesize ∧ dur ≤ st.duration.maximum ∧
          (st.duration.restrict_to_allowed = true → dur ∈ st.duration.allowed)))
    ∧ (∀ (st : Settings) (size : Nat) (dur : Int),
      websocket_upload_validate st size dur = none ↔
        (size ≤ st.max_filesize ∧ dur ≤ st.duration.maximum ∧
          (st.duration.restrict_to_allowed = true → dur ∈ st.duration.allowed))) := by
  constructor <;>
  · intro st size dur
    simp only [chunked_upload_start_validate, websocket_upload_validate]
    by_cases h1 : size > st.max_filesize
    · rw [if_pos h1]
      constructor
      · intro h
        exact absurd h (by simp)
      · rintro ⟨ha, _⟩
        omega
    · rw [if_neg h1]
      by_cases h2 : st.duration.restrict_to_allowed = true ∧
          dur ∉ st.duration.allowed
      · rw [if_pos h2]
        constructor
        · intro h
          exact absurd h (by simp)
        · rintro ⟨_, _, hr⟩
          exact absurd (hr h2.1) h2.2
      · rw [if_neg h2]
        by_cases h3 : dur > st.duration.maximum
        · rw [if_pos h3]
          constructor
          · intro h
            exact absurd h (by simp)
          · rintro ⟨_, hb, _⟩
            omega
        · rw [if_neg h3]
          simp only [true_iff]
          refine ⟨by omega, by omega, fun hr => ?_⟩
          by_contra hmem
          exact h2 ⟨hr, hmem⟩

/-! ## Read side ignores expiry (C10) -/

/-- **C10** (confirmed).  For an entry whose expiry has passed but
which no sweep has removed yet, every read path still succeeds:
`Mochibase::get` returns the entry, `/info/<mmid>` returns its JSON,
and `/f/<mmid>/<name>` serves the blob — no read-side operation
checks `expiry_datetime`. -/
theorem read_paths_ignore_expiry (db : Mochibase) (fileDir : List Hash)
    (s : String) (m : Mmid) (e : MochiFile) (now : Int)
    (hm : mmidTryFrom s = some m) (he : getA db.entries m = some e)
    (_hexp : e.is_expired now = true) (hblob : e.hash ∈ fileDir) :
    db.get m = some e ∧
    file_info db s = some e ∧
    lookup_mmid_name db fileDir s e.name = some (e.mime_type, e.hash) := by
  have hget : db.get m = some e := he
  refine ⟨hget, ?_, ?_⟩
  · unfold file_info
    rw [hm]
    exact hget
  · unfold lookup_mmid_name
    rw [hm]
    show (db.get m).bind (fun e2 =>
      if e.name ≠ e2.name then none
      else if e2.hash ∈ fileDir then some (e2.mime_type, e2.hash)
      else none) = some (e.mime_type, e.hash)
    rw [hget]
    show (if e.name ≠ e.name then none
      else if e.hash ∈ fileDir then some (e.mime_type, e.hash)
      else none) = some (e.mime_type, e.hash)
    rw [if_neg (by simp), if_pos hblob]

/-- **C10** witness: `fileA` expired at time 50; at time 100 the three
read paths still return it. -/
theorem read_paths_ignore_expiry_witness :
    dbSmall.get mA = some fileA ∧
    file_info dbSmall "aaaaaaaa" = some fileA ∧
    lookup_mmid_name dbSmall [byteHash 0] "aaaaaaaa" fileA.name =
      some (fileA.mime_type, fileA.hash) :=
  read_paths_ignore_expiry dbSmall [byteHash 0] "aaaaaaaa" mA fileA 100
    (by decide) (by decide) (by decide) (by decide)


/-! ## WebSocket overflow behaviour (C5) -/

/-- **C5** (code bug).  With declared size 5 (and `max_filesize` 100),
a single 6-byte binary frame makes the cumulative count exceed
`min(declared size, max_filesize)`.  The spec says the socket is
closed abnormally and the staged upload discarded; the code instead
merely breaks out of the receive loop and then proceeds to promote the
(empty) staged content as a blob, insert an entry into the metadata
index, and send the entry JSON text frame to the client. -/
theorem websocket_overflow_still_inserts :
    (websocket_upload_run constHashFn constMimeFn ⟨"db", [], []⟩ [] wsInfo 100
      [List.replicate 6 0] mA 0).sentEntry.isSome = true ∧
    (websocket_upload_run constHashFn constMimeFn ⟨"db", [], []⟩ [] wsInfo 100
      [List.replicate 6 0] mA 0).insertResult = true ∧
    (websocket_upload_run constHashFn constMimeFn ⟨"db", [], []⟩ [] wsInfo 100
      [List.replicate 6 0] mA 0).storedBytes = [] ∧
    getA (websocket_upload_run constHashFn constMimeFn ⟨"db", [], []⟩ [] wsInfo
      100 [List.replicate 6 0] mA 0).mainDb.entries mA ≠ none ∧
    (websocket_upload_run constHashFn constMimeFn ⟨"db", [], []⟩ [] wsInfo 100
      [List.replicate 6 0] mA 0).bs = [constHashFn []] := by
  decide

/-! ## Finish does not retry MMID collisions (C6) -/

theorem finish_eq_of_found (hashFn : List (Fin 256) → Hash)
    (mimeFn : List (Fin 256) → String) (mainDb : Mochibase) (cb : Chunkbase)
    (sfs : List (String × List (Fin 256))) (bs : List Hash) (uuid : Uuid)
    (mmid : Mmid) (now : Int) (ci : Int × ChunkedInfo)
    (content : List (Fin 256)) (hg : getA cb.chunks uuid = some ci)
    (hc : getA sfs ci.2.path = some content) :
    chunked_upload_finish_run hashFn mimeFn mainDb cb sfs bs uuid mmid now =
      chunked_upload_finish_body hashFn mimeFn mainDb cb sfs bs uuid mmid now
        ci content := by
  unfold chunked_upload_finish_run
  rw [hg]
  show (match getA sfs ci.2.path with
    | none => (⟨mainDb, cb, sfs, bs, .error "File does not exist"⟩ : FinishOut)
    | some content =>
      chunked_upload_finish_body hashFn mimeFn mainDb cb sfs bs uuid mmid now
        ci content) = _
  rw [hc]

/-- **C6** (corrected).  When finishing an upload, the server
generates a *single* MMID and performs one `insert`, discarding its
boolean result — there is no retry loop.  The response always carries
the constructed entry; if the MMID collides with one already in the
refs set for the same hash, the insert is a no-op and the returned
entry is *not* in the index. -/
theorem chunked_upload_finish_no_retry (hashFn : List (Fin 256) → Hash)
    (mimeFn : List (Fin 256) → String) (mainDb : Mochibase) (cb : Chunkbase)
    (sfs : List (String × List (Fin 256))) (bs : List Hash) (uuid : Uuid)
    (mmid : Mmid) (now : Int) (ci : Int × ChunkedInfo)
    (content : List (Fin 256)) (hg : getA cb.chunks uuid = some ci)
    (hc : getA sfs ci.2.path = some content) :
    (chunked_upload_finish_run hashFn mimeFn mainDb cb sfs bs uuid mmid
        now).response =
      .ok ⟨mmid, ci.2.name, mimeFn content, hashFn content, now,
        now + ci.2.expire_duration⟩ ∧
    (chunked_upload_finish_run hashFn mimeFn mainDb cb sfs bs uuid mmid
        now).mainDb =
      (mainDb.insert mmid ⟨mmid, ci.2.name, mimeFn content, hashFn content,
        now, now + ci.2.expire_duration⟩).1 ∧
    ((∃ s, getA mainDb.hashes (hashFn content) = some s ∧ mmid ∈ s) →
      (chunked_upload_finish_run hashFn mimeFn mainDb cb sfs bs uuid mmid
        now).mainDb = mainDb) := by
  rw [finish_eq_of_found hashFn mimeFn mainDb cb sfs bs uuid mmid now ci
    content hg hc]
  refine ⟨rfl, rfl, fun hcol => ?_⟩
  have hfalse : (mainDb.insert mmid ⟨mmid, ci.2.name, mimeFn content,
      hashFn content, now, now + ci.2.expire_duration⟩).2 = false :=
    (insert_snd_false_iff mainDb mmid _).mpr hcol
  exact insert_false_unchanged mainDb mmid _ hfalse

/-- **C6** witness: a concrete finish against the empty index inserts
and returns the constructed entry; the same finish against `dbSmall`,
where the passed MMID already occupies the refs set of the hash,
leaves the index unchanged. -/
theorem chunked_upload_finish_no_retry_witness :
    (chunked_upload_finish_run zeroHashFn constMimeFn ⟨"db", [], []⟩ cbFin
      sfsFin [] 7 mA 100).response = .ok fileNew ∧
    (chunked_upload_finish_run zeroHashFn constMimeFn dbSmall cbFin sfsFin []
      7 mA 100).mainDb = dbSmall := by
  have h1 := chunked_upload_finish_no_retry zeroHashFn constMimeFn
    ⟨"db", [], []⟩ cbFin sfsFin [] 7 mA 100 (100, ciNew) [1, 2] (by decide)
    (by decide)
  have h2 := chunked_upload_finish_no_retry zeroHashFn constMimeFn dbSmall
    cbFin sfsFin [] 7 mA 100 (100, ciNew) [1, 2] (by decide) (by decide)
  exact ⟨h1.1, h2.2.2 ⟨[mA], by decide, by decide⟩⟩

/-- **C6** counterexample: on an MMID collision `chunked_upload_finish`
does not retry — it answers success with the freshly constructed entry
while the index still holds the old entry under that MMID, so the
response does not describe an entry present in the index. -/
theorem finish_claim_counterexample :
    (chunked_upload_finish_run zeroHashFn constMimeFn dbSmall cbFin sfsFin []
      7 mA 100).response = .ok fileNew ∧
    getA (chunked_upload_finish_run zeroHashFn constMimeFn dbSmall cbFin
      sfsFin [] 7 mA 100).mainDb.entries mA = some fileA ∧
    fileA ≠ fileNew := by
  decide


/-! ## Snapshot round trip (C9) -/

theorem hexDigitVal_hexDigit : ∀ d : Fin 16, hexDigitVal (hexDigit d) = some d := by
  decide

theorem bytesOfHexChars_flatten (l : List (Fin 256)) :
    bytesOfHexChars ((l.map hexOfByte).flatten) = some l := by
  induction l with
  | nil => rfl
  | cons b t ih =>
    show bytesOfHexChars (hexDigit ⟨b.val / 16, by omega⟩ ::
      hexDigit ⟨b.val % 16, by omega⟩ :: (t.map hexOfByte).flatten) = some (b :: t)
    rw [bytesOfHexChars]
    rw [hexDigitVal_hexDigit, hexDigitVal_hexDigit, ih]
    show some (⟨16 * (b.val / 16) + b.val % 16, by omega⟩ :: t) = some (b :: t)
    have hb : (⟨16 * (b.val / 16) + b.val % 16, by omega⟩ : Fin 256) = b :=
      Fin.ext (show 16 * (b.val / 16) + b.val % 16 = b.val by omega)
    rw [hb]

theorem mapM_roundtrip {α β : Type} (f : β → Option α) (g : α → β)
    (l : List α) (h : ∀ a ∈ l, f (g a) = some a) : (l.map g).mapM f = some l := by
  induction l with
  | nil => rfl
  | cons a t ih =>
    rw [List.map_cons, List.mapM_cons, h a (List.mem_cons_self a t),
      ih (fun a2 ha2 => h a2 (List.mem_cons_of_mem a ha2))]
    rfl

theorem deserFile_serFile (f : MochiFile) : deserFile (serFile f) = some f := by
  show (match bytesOfHexChars (hexOfBytes f.hash.val).toList with
    | some bl =>
      if h : bl.length = 32 then
        some ⟨⟨f.mmid.val⟩, f.name, f.mime_type, ⟨bl, h⟩, f.upload_datetime,
          f.expiry_datetime⟩
      else none
    | none => none) = some f
  rw [show (hexOfBytes f.hash.val).toList =
      (f.hash.val.map hexOfByte).flatten from rfl]
  rw [bytesOfHexChars_flatten]
  show (if h : f.hash.val.length = 32 then
      some (⟨⟨f.mmid.val⟩, f.name, f.mime_type, ⟨f.hash.val, h⟩,
        f.upload_datetime, f.expiry_datetime⟩ : MochiFile)
    else none) = some f
  rw [dif_pos f.hash.2]
  rfl

theorem deserHashPair_ser (p : Hash × List Mmid) :
    deserHashPair (.bytes p.1.val, .arr (p.2.map (fun m => .text m.val))) =
      some p := by
  show (if h : p.1.val.length = 32 then
      ((p.2.map (fun m => CVal.text m.val)).mapM deserMmid).map
        (fun ms => ((⟨p.1.val, h⟩ : Hash), ms))
    else none) = some p
  rw [dif_pos p.1.2]
  rw [mapM_roundtrip deserMmid (fun m => CVal.text m.val) p.2
    (fun a _ => rfl)]
  rfl

theorem deserEntryPair_ser (p : Mmid × MochiFile) :
    deserEntryPair (.text p.1.val, serFile p.2) = some p := by
  show (deserFile (serFile p.2)).map (fun f => ((⟨p.1.val⟩ : Mmid), f)) = some p
  rw [deserFile_serFile]
  rfl

theorem deserBase_serBase (db : Mochibase) : deserBase (serBase db) = some db := by
  show (do
    let hs ← (db.hashes.map
      (fun p => ((CVal.bytes p.1.val),
        CVal.arr (p.2.map (fun m => CVal.text m.val))))).mapM deserHashPair
    let es ← (db.entries.map
      (fun p => ((CVal.text p.1.val), serFile p.2))).mapM deserEntryPair
    pure (⟨db.path, hs, es⟩ : Mochibase)) = some db
  rw [mapM_roundtrip deserHashPair _ db.hashes (fun a _ => deserHashPair_ser a)]
  show ((db.entries.map (fun p => ((CVal.text p.1.val), serFile p.2))).mapM
      deserEntryPair).bind
      (fun es => some (⟨db.path, db.hashes, es⟩ : Mochibase)) = some db
  rw [mapM_roundtrip deserEntryPair _ db.entries (fun a _ => deserEntryPair_ser a)]
  rfl

/-- **C9** (confirmed).  `Mochibase::save` writes the serialized index
to the `.bkp` sibling and renames it over the primary path; opening
that path afterwards decodes an index equal to the original —
`entries`, `hashes`, and every field of every entry included. -/
theorem mochibase_save_open_roundtrip (db : Mochibase)
    (fs : List (String × CVal)) :
    Mochibase.openBase (db.save fs) db.path = some db := by
  unfold Mochibase.openBase Mochibase.save
  show (getA (match getA (setA fs (withExtension db.path "bkp") (serBase db))
        (withExtension db.path "bkp") with
      | some v =>
        setA (removeA (setA fs (withExtension db.path "bkp") (serBase db))
          (withExtension db.path "bkp")) db.path v
      | none => setA fs (withExtension db.path "bkp") (serBase db))
      db.path).bind deserBase = some db
  rw [getA_setA_self]
  show (getA (setA (removeA (setA fs (withExtension db.path "bkp")
      (serBase db)) (withExtension db.path "bkp")) db.path (serBase db))
      db.path).bind deserBase = some db
  rw [getA_setA_self]
  show deserBase (serBase db) = some db
  exact deserBase_serBase db


/-! ## Invariant preservation (C1) -/

theorem insert_preserves_wf (db : Mochibase) (m : Mmid) (e : MochiFile)
    (hwf : DbWF db) (hfresh : getA db.entries m = none) (hmm : e.mmid = m) :
    DbWF (db.insert m e).1 := by
  obtain ⟨hnde, hndh, hset, hkey, hi1, hi2⟩ := hwf
  cases hg : getA db.hashes e.hash with
  | none =>
    rw [insert_eq_of_none db m e hg]
    refine ⟨keysA_nodup_setA m e hnde, keysA_nodup_setA e.hash [m] hndh,
      ?_, ?_, ?_, ?_⟩
    · intro p hp
      rcases (mem_setA_iff hndh).mp hp with h1 | ⟨h1, _⟩
      · rw [h1]; simp
      · exact hset p h1
    · intro p hp
      rcases (mem_setA_iff hnde).mp hp with h1 | ⟨h1, _⟩
      · rw [h1]; exact hmm
      · exact hkey p h1
    · intro p hp
      rcases (mem_setA_iff hnde).mp hp with h1 | ⟨h1, hne⟩
      · subst h1
        exact ⟨[m], getA_setA_self _ _ _, by simp⟩
      · obtain ⟨s2, hs2, hmem⟩ := hi1 p h1
        by_cases hph : p.2.hash = e.hash
        · rw [hph, hg] at hs2
          exact absurd hs2 (by simp)
        · refine ⟨s2, ?_, hmem⟩
          rw [getA_setA_ne db.hashes e.hash p.2.hash [m] hph]
          exact hs2
    · intro p hp m2 hm2
      rcases (mem_setA_iff hndh).mp hp with h1 | ⟨h1, hne⟩
      · subst h1
        simp only [List.mem_singleton] at hm2
        subst hm2
        exact ⟨e, getA_setA_self _ _ _, rfl⟩
      · obtain ⟨e2, he2, hh2⟩ := hi2 p h1 m2 hm2
        have hm2ne : m2 ≠ m := by
          intro hEq
          rw [hEq, hfresh] at he2
          exact Option.noConfusion he2
        refine ⟨e2, ?_, hh2⟩
        rw [getA_setA_ne db.entries m m2 e hm2ne]
        exact he2
  | some s =>
    by_cases hm : m ∈ s
    · rw [insert_eq_of_mem db m e s hg hm]
      exact ⟨hnde, hndh, hset, hkey, hi1, hi2⟩
    · rw [insert_eq_of_not_mem db m e s hg hm]
      refine ⟨keysA_nodup_setA m e hnde, keysA_nodup_setA e.hash (s ++ [m]) hndh,
        ?_, ?_, ?_, ?_⟩
      · intro p hp
        rcases (mem_setA_iff hndh).mp hp with h1 | ⟨h1, _⟩
        · rw [h1]
          have hns := hset (e.hash, s) (mem_of_getA_eq_some hg)
          simp only at hns ⊢
          simp [List.nodup_append, hns, hm]
        · exact hset p h1
      · intro p hp
        rcases (mem_setA_iff hnde).mp hp with h1 | ⟨h1, _⟩
        · rw [h1]; exact hmm
        · exact hkey p h1
      · intro p hp
        rcases (mem_setA_iff hnde).mp hp with h1 | ⟨h1, hne⟩
        · subst h1
          exact ⟨s ++ [m], getA_setA_self _ _ _, by simp⟩
        · obtain ⟨s2, hs2, hmem⟩ := hi1 p h1
          by_cases hph : p.2.hash = e.hash
          · have hseq : s2 = s := by
              rw [hph, hg] at hs2
              exact (Option.some.injEq _ _).mp hs2.symm
            refine ⟨s ++ [m], ?_, ?_⟩
            · rw [hph]
              exact getA_setA_self _ _ _
            · exact List.mem_append_left _ (hseq ▸ hmem)
          · refine ⟨s2, ?_, hmem⟩
            rw [getA_setA_ne db.hashes e.hash p.2.hash (s ++ [m]) hph]
            exact hs2
      · intro p hp m2 hm2
        rcases (mem_setA_iff hndh).mp hp with h1 | ⟨h1, hne⟩
        · subst h1
          simp only at hm2
          rcases List.mem_append.mp hm2 with hin | hin
          · obtain ⟨e2, he2, hh2⟩ :=
              hi2 (e.hash, s) (mem_of_getA_eq_some hg) m2 hin
            have hm2ne : m2 ≠ m := by
              intro hEq
              rw [hEq, hfresh] at he2
              exact Option.noConfusion he2
            refine ⟨e2, ?_, hh2⟩
            rw [getA_setA_ne db.entries m m2 e hm2ne]
            exact he2
          · simp only [List.mem_singleton] at hin
            subst hin
            exact ⟨e, getA_setA_self _ _ _, rfl⟩
        · obtain ⟨e2, he2, hh2⟩ := hi2 p h1 m2 hm2
          have hm2ne : m2 ≠ m := by
            intro hEq
            rw [hEq, hfresh] at he2
            exact Option.noConfusion he2
          refine ⟨e2, ?_, hh2⟩
          rw [getA_setA_ne db.entries m m2 e hm2ne]
          exact he2


theorem remove_mmid_preserves_wf (db : Mochibase) (m : Mmid) (hwf : DbWF db) :
    DbWF (db.remove_mmid m).1 := by
  obtain ⟨hnde, hndh, hset, hkey, hi1, hi2⟩ := hwf
  cases he : getA db.entries m with
  | none =>
    rw [remove_mmid_eq_of_none db m he]
    exact ⟨hnde, hndh, hset, hkey, hi1, hi2⟩
  | some e =>
    obtain ⟨s, hs, hmem⟩ := hi1 (m, e) (mem_of_getA_eq_some he)
    rw [remove_mmid_eq_of_some db m e s he hs]
    refine ⟨keysA_nodup_removeA m hnde, keysA_nodup_setA e.hash _ hndh,
      ?_, ?_, ?_, ?_⟩
    · intro p hp
      rcases (mem_setA_iff hndh).mp hp with h1 | ⟨h1, _⟩
      · rw [h1]
        exact List.Nodup.filter _ (hset (e.hash, s) (mem_of_getA_eq_some hs))
      · exact hset p h1
    · intro p hp
      exact hkey p ((mem_removeA_iff hnde).mp hp).1
    · intro p hp
      obtain ⟨hpmem, hpne⟩ := (mem_removeA_iff hnde).mp hp
      obtain ⟨s2, hs2, hmm2⟩ := hi1 p hpmem
      by_cases hph : p.2.hash = e.hash
      · have hseq : s2 = s := by
          rw [hph, hs] at hs2
          exact (Option.some.injEq _ _).mp hs2.symm
        refine ⟨s.filter (· ≠ m), ?_, ?_⟩
        · rw [hph]
          exact getA_setA_self _ _ _
        · rw [List.mem_filter]
          exact ⟨hseq ▸ hmm2, by simp [hpne]⟩
      · refine ⟨s2, ?_, hmm2⟩
        rw [getA_setA_ne db.hashes e.hash p.2.hash _ hph]
        exact hs2
    · intro p hp m2 hm2
      rcases (mem_setA_iff hndh).mp hp with h1 | ⟨h1, hne⟩
      · subst h1
        simp only [List.mem_filter] at hm2
        obtain ⟨hin, hm2ne2⟩ := hm2
        have hm2ne : m2 ≠ m := by simpa using hm2ne2
        obtain ⟨e2, he2, hh2⟩ :=
          hi2 (e.hash, s) (mem_of_getA_eq_some hs) m2 hin
        refine ⟨e2, ?_, hh2⟩
        rw [getA_removeA_ne db.entries m m2 hm2ne]
        exact he2
      · obtain ⟨e2, he2, hh2⟩ := hi2 p h1 m2 hm2
        have hm2ne : m2 ≠ m := by
          intro hEq
          rw [hEq, he] at he2
          have h3 : e = e2 := (Option.some.injEq _ _).mp he2
          exact hne (by rw [← hh2, ← h3])
        refine ⟨e2, ?_, hh2⟩
        rw [getA_removeA_ne db.entries m m2 hm2ne]
        exact he2

theorem remove_hash_preserves_wf (db : Mochibase) (h : Hash) (hwf : DbWF db) :
    DbWF (db.remove_hash h).1 := by
  obtain ⟨hnde, hndh, hset, hkey, hi1, hi2⟩ := hwf
  cases hg : getA db.hashes h with
  | none =>
    rw [remove_hash_eq_of_none db h hg]
    exact ⟨hnde, hndh, hset, hkey, hi1, hi2⟩
  | some s =>
    cases s with
    | nil =>
      rw [remove_hash_eq_of_empty db h hg]
      refine ⟨hnde, keysA_nodup_removeA h hndh, ?_, hkey, ?_, ?_⟩
      · intro p hp
        exact hset p (mem_of_mem_removeA hp)
      · intro p hp
        obtain ⟨s2, hs2, hmm2⟩ := hi1 p hp
        have hph : p.2.hash ≠ h := by
          intro hEq
          rw [hEq, hg] at hs2
          have h3 : ([] : List Mmid) = s2 := (Option.some.injEq _ _).mp hs2
          rw [← h3] at hmm2
          exact absurd hmm2 (List.not_mem_nil _)
        refine ⟨s2, ?_, hmm2⟩
        rw [getA_removeA_ne db.hashes h p.2.hash hph]
        exact hs2
      · intro p hp m2 hm2
        exact hi2 p (mem_of_mem_removeA hp) m2 hm2
    | cons x t =>
      rw [remove_hash_eq_of_nonempty db h x t hg]
      exact ⟨hnde, hndh, hset, hkey, hi1, hi2⟩


theorem sweepGo_nil (db : Mochibase) (fs : List Hash) :
    sweepGo db fs [] = (db, fs) := rfl

theorem sweepGo_cons_pos (db : Mochibase) (fs : List Hash) (m : Mmid)
    (h : Hash) (rest : List (Mmid × Hash))
    (hc : (((db.remove_mmid m).1.is_hash_empty h).getD false) = true) :
    sweepGo db fs ((m, h) :: rest) =
      sweepGo ((db.remove_mmid m).1.remove_hash h).1 (fs.filter (· ≠ h)) rest := by
  show (if (((db.remove_mmid m).1.is_hash_empty h).getD false) = true then
      sweepGo ((db.remove_mmid m).1.remove_hash h).1 (fs.filter (· ≠ h)) rest
    else sweepGo (db.remove_mmid m).1 fs rest) = _
  rw [if_pos hc]

theorem sweepGo_cons_neg (db : Mochibase) (fs : List Hash) (m : Mmid)
    (h : Hash) (rest : List (Mmid × Hash))
    (hc : ¬ (((db.remove_mmid m).1.is_hash_empty h).getD false) = true) :
    sweepGo db fs ((m, h) :: rest) = sweepGo (db.remove_mmid m).1 fs rest := by
  show (if (((db.remove_mmid m).1.is_hash_empty h).getD false) = true then
      sweepGo ((db.remove_mmid m).1.remove_hash h).1 (fs.filter (· ≠ h)) rest
    else sweepGo (db.remove_mmid m).1 fs rest) = _
  rw [if_neg hc]

theorem sweepGo_preserves_wf :
    ∀ (L : List (Mmid × Hash)) (db : Mochibase) (fs : List Hash),
      DbWF db → DbWF (sweepGo db fs L).1 := by
  intro L
  induction L with
  | nil =>
    intro db fs hwf
    rw [sweepGo_nil]
    exact hwf
  | cons q rest ih =>
    intro db fs hwf
    obtain ⟨m, h⟩ := q
    by_cases hc : (((db.remove_mmid m).1.is_hash_empty h).getD false) = true
    · rw [sweepGo_cons_pos db fs m h rest hc]
      exact ih _ _ (remove_hash_preserves_wf _ h
        (remove_mmid_preserves_wf db m hwf))
    · rw [sweepGo_cons_neg db fs m h rest hc]
      exact ih _ _ (remove_mmid_preserves_wf db m hwf)

theorem clean_database_preserves_wf (db : Mochibase) (fs : List Hash)
    (now : Int) (hwf : DbWF db) : DbWF (clean_database db fs now).1 :=
  sweepGo_preserves_wf _ db fs hwf

theorem remove_mmid_keeps_hash_key (db : Mochibase) (m : Mmid) (e : MochiFile)
    (s : List Mmid) (he : getA db.entries m = some e)
    (hs : getA db.hashes e.hash = some s) :
    getA (db.remove_mmid m).1.hashes e.hash = some (s.filter (· ≠ m)) := by
  rw [remove_mmid_eq_of_some db m e s he hs]
  exact getA_setA_self _ _ _

/-- **C1** (corrected).  The two-sided containment invariant holds in
every reachable state: every entry's MMID is in the refs set for its
hash (I1), and every MMID in a refs set resolves in `entries` to an
entry with that hash (I2); both are preserved by `insert` *with a
fresh MMID*, by `remove_mmid`, by `remove_hash`, and by the reaper
sweep.  But refs sets are **not** always non-empty: `remove_mmid`
never removes the hash key — it leaves the (possibly empty) filtered
set in place under its key; the key is removed only by a later
`remove_hash` (the reaper sweep does this). -/
theorem mochibase_invariant_preservation :
    (∀ (db : Mochibase) (m : Mmid) (e : MochiFile), DbWF db →
      getA db.entries m = none → e.mmid = m → DbWF (db.insert m e).1)
    ∧ (∀ (db : Mochibase) (m : Mmid), DbWF db → DbWF (db.remove_mmid m).1)
    ∧ (∀ (db : Mochibase) (h : Hash), DbWF db → DbWF (db.remove_hash h).1)
    ∧ (∀ (db : Mochibase) (fs : List Hash) (now : Int), DbWF db →
        DbWF (clean_database db fs now).1)
    ∧ (∀ (db : Mochibase) (m : Mmid) (e : MochiFile) (s : List Mmid),
        getA db.entries m = some e → getA db.hashes e.hash = some s →
        getA (db.remove_mmid m).1.hashes e.hash = some (s.filter (· ≠ m))) :=
  ⟨insert_preserves_wf, remove_mmid_preserves_wf, remove_hash_preserves_wf,
   clean_database_preserves_wf, remove_mmid_keeps_hash_key⟩

/-- **C1** witness: concrete preservation runs, ending with the
concrete fact that removing the only MMID of a hash leaves the hash
key mapped to the empty set. -/
theorem mochibase_invariant_preservation_witness :
    DbWF ((dbSmall.insert mB fileB).1) ∧
    DbWF ((dbSmall.remove_mmid mA).1) ∧
    DbWF ((dbSmall.remove_hash (byteHash 0)).1) ∧
    DbWF ((clean_database dbSmall [byteHash 0] 100).1) ∧
    getA (dbSmall.remove_mmid mA).1.hashes (byteHash 0) = some [] := by
  refine ⟨mochibase_invariant_preservation.1 dbSmall mB fileB (by decide)
      (by decide) (by decide),
    mochibase_invariant_preservation.2.1 dbSmall mA (by decide),
    mochibase_invariant_preservation.2.2.1 dbSmall (byteHash 0) (by decide),
    mochibase_invariant_preservation.2.2.2.1 dbSmall [byteHash 0] 100
      (by decide), ?_⟩
  have h := mochibase_invariant_preservation.2.2.2.2 dbSmall mA fileA [mA]
    (by decide) (by decide)
  simpa using h

/-- **C1** counterexample: after `remove_mmid` empties `fileA`'s refs
set, the hash key is still present in the refs map, mapped to the
empty set — contradicting both "the set is never empty while present"
and "remove_mmid also removes the key when the set becomes empty". -/
theorem mochibase_claim_counterexample :
    (dbSmall.remove_mmid mA).2 = true ∧
    getA (dbSmall.remove_mmid mA).1.hashes (byteHash 0) = some [] ∧
    getA (dbSmall.remove_mmid mA).1.hashes (byteHash 0) ≠ none := by
  decide


/-! ## Reaper sweep characterization (C3) -/

theorem sweepGo_spec :
    ∀ (L : List (Mmid × Hash)) (db : Mochibase) (fs : List Hash),
    DbWF db → NoEmptySets db → (L.map Prod.fst).Nodup →
    (∀ q ∈ L, ∃ e, getA db.entries q.1 = some e ∧ e.hash = q.2) →
    (∀ m2, getA (sweepGo db fs L).1.entries m2 =
        if m2 ∈ L.map Prod.fst then none else getA db.entries m2)
    ∧ (∀ h2, getA db.hashes h2 = none →
        getA (sweepGo db fs L).1.hashes h2 = none)
    ∧ (∀ h2 s2, getA db.hashes h2 = some s2 →
        getA (sweepGo db fs L).1.hashes h2 =
          if ∀ x ∈ s2, x ∈ L.map Prod.fst then none
          else some (s2.filter (fun x => x ∉ L.map Prod.fst)))
    ∧ (∀ h2, h2 ∈ (sweepGo db fs L).2 ↔
        (h2 ∈ fs ∧
          ¬(∃ s2, getA db.hashes h2 = some s2 ∧
            ∀ x ∈ s2, x ∈ L.map Prod.fst))) := by
  intro L
  induction L with
  | nil =>
    intro db fs hwf hnes hnd hq
    rw [sweepGo_nil]
    refine ⟨fun m2 => by simp, fun h2 hn => hn, ?_, ?_⟩
    · intro h2 s2 hs2
      have hs2ne : s2 ≠ [] := hnes (h2, s2) (mem_of_getA_eq_some hs2)
      cases s2 with
      | nil => exact absurd rfl hs2ne
      | cons a t =>
        rw [if_neg (fun hall => by simpa using hall a (List.mem_cons_self a t))]
        rw [hs2]
        have hfid : (a :: t).filter
            (fun x => x ∉ (([] : List (Mmid × Hash)).map Prod.fst)) = a :: t :=
          List.filter_eq_self.mpr (fun x _ => by simp)
        rw [hfid]
    · intro h2
      constructor
      · intro hmem
        refine ⟨hmem, ?_⟩
        rintro ⟨s2, hs2, hall⟩
        have hs2ne : s2 ≠ [] := hnes (h2, s2) (mem_of_getA_eq_some hs2)
        cases s2 with
        | nil => exact hs2ne rfl
        | cons a t => simpa using hall a (List.mem_cons_self a t)
      · rintro ⟨hmem, _⟩
        exact hmem
  | cons q rest ih =>
    intro db fs hwf hnes hnd hq
    obtain ⟨m, h⟩ := q
    have hwfKeep := hwf
    obtain ⟨hnde, hndh, hset, hkey, hi1, hi2⟩ := hwf
    obtain ⟨e, he, hehash⟩ := hq (m, h) (List.mem_cons_self _ _)
    subst hehash
    have hee : getA db.entries m = some e := he
    obtain ⟨s, hs0, hms⟩ := hi1 (m, e) (mem_of_getA_eq_some hee)
    have hs0e : getA db.hashes e.hash = some s := hs0
    have hdb1 : (db.remove_mmid m).1 =
        { db with
          hashes := setA db.hashes e.hash (s.filter (· ≠ m)),
          entries := removeA db.entries m } := by
      rw [remove_mmid_eq_of_some db m e s hee hs0e]
    have hg1 : getA (db.remove_mmid m).1.hashes e.hash =
        some (s.filter (· ≠ m)) := by
      rw [hdb1]
      exact getA_setA_self _ _ _
    have hgetd : (((db.remove_mmid m).1.is_hash_empty e.hash).getD false) =
        (s.filter (· ≠ m)).isEmpty := by
      rw [Mochibase.is_hash_empty, hg1]
      rfl
    simp only [List.map_cons] at hnd ⊢
    have hmnotr : m ∉ rest.map Prod.fst := (List.nodup_cons.mp hnd).1
    have hndr : (rest.map Prod.fst).Nodup := (List.nodup_cons.mp hnd).2
    have hq1ne : ∀ q2 ∈ rest, q2.1 ≠ m := by
      intro q2 hq2 hEq
      exact hmnotr (hEq ▸ List.mem_map_of_mem Prod.fst hq2)
    -- an MMID in the refs set of a *different* hash is never `m`
    have hmnotin : ∀ h2 s2, getA db.hashes h2 = some s2 → h2 ≠ e.hash →
        m ∉ s2 := by
      intro h2 s2 hs2 hcase hin
      obtain ⟨e2, he2, hh2⟩ := hi2 (h2, s2) (mem_of_getA_eq_some hs2) m hin
      have hh2e : e2.hash = h2 := hh2
      rw [hee] at he2
      have h3 : e = e2 := (Option.some.injEq _ _).mp he2
      exact hcase (by rw [← hh2e, ← h3])
    have hcondiff : ∀ h2 s2, getA db.hashes h2 = some s2 → h2 ≠ e.hash →
        ((∀ x ∈ s2, x ∈ rest.map Prod.fst) ↔
          (∀ x ∈ s2, x ∈ m :: rest.map Prod.fst)) := by
      intro h2 s2 hs2 hcase
      constructor
      · intro ha x hx
        exact List.mem_cons_of_mem _ (ha x hx)
      · intro ha x hx
        rcases List.mem_cons.mp (ha x hx) with h1 | h1
        · exact absurd (h1 ▸ hx) (hmnotin h2 s2 hs2 hcase)
        · exact h1
    have hfiltereq : ∀ h2 s2, getA db.hashes h2 = some s2 → h2 ≠ e.hash →
        s2.filter (fun x => x ∉ rest.map Prod.fst) =
          s2.filter (fun x => x ∉ m :: rest.map Prod.fst) := by
      intro h2 s2 hs2 hcase
      refine List.filter_congr (fun x hx => ?_)
      have hxm : x ≠ m := fun hEq => (hmnotin h2 s2 hs2 hcase) (hEq ▸ hx)
      simp [List.mem_cons, hxm]
    by_cases hemp : (s.filter (· ≠ m)).isEmpty = true
    · -- the refs set for `e.hash` empties: remove_hash fires and the
      -- blob file is deleted
      have hfl : s.filter (· ≠ m) = [] := by
        cases hfe : s.filter (· ≠ m) with
        | nil => rfl
        | cons a t => rw [hfe] at hemp; exact absurd hemp (by simp)
      have hALL : ∀ x ∈ s, x = m := by
        intro x hx
        by_contra hxn
        have hmem2 : x ∈ s.filter (· ≠ m) :=
          List.mem_filter.mpr ⟨hx, by simp [hxn]⟩
        rw [hfl] at hmem2
        exact absurd hmem2 (List.not_mem_nil x)
      have hstepeq := sweepGo_cons_pos db fs m e.hash rest
        (by rw [hgetd]; exact hemp)
      have hg1e : getA (db.remove_mmid m).1.hashes e.hash = some [] := by
        rw [hg1, hfl]
      have h2step := remove_hash_eq_of_empty (db.remove_mmid m).1 e.hash hg1e
      have hDe : ((db.remove_mmid m).1.remove_hash e.hash).1.entries =
          removeA db.entries m := by
        rw [congrArg Prod.fst h2step, hdb1]
      have hDh : ((db.remove_mmid m).1.remove_hash e.hash).1.hashes =
          removeA (setA db.hashes e.hash (s.filter (· ≠ m))) e.hash := by
        rw [congrArg Prod.fst h2step, hdb1]
      have hwf2 : DbWF ((db.remove_mmid m).1.remove_hash e.hash).1 :=
        remove_hash_preserves_wf _ _ (remove_mmid_preserves_wf db m hwfKeep)
      have hnes2 : NoEmptySets ((db.remove_mmid m).1.remove_hash e.hash).1 := by
        intro p hp
        rw [hDh] at hp
        obtain ⟨hp1, hp2⟩ := (mem_removeA_iff (keysA_nodup_setA _ _ hndh)).mp hp
        rcases (mem_setA_iff hndh).mp hp1 with h1 | ⟨h1, _⟩
        · exact absurd (congrArg Prod.fst h1) hp2
        · exact hnes p h1
      have hq2 : ∀ q2 ∈ rest,
          ∃ e2, getA ((db.remove_mmid m).1.remove_hash e.hash).1.entries q2.1 =
            some e2 ∧ e2.hash = q2.2 := by
        intro q2 hq2
        obtain ⟨e2, he2, hh2⟩ := hq q2 (List.mem_cons_of_mem _ hq2)
        refine ⟨e2, ?_, hh2⟩
        rw [hDe, getA_removeA_ne db.entries m q2.1 (hq1ne q2 hq2)]
        exact he2
      obtain ⟨IH1, IH2n, IH2s, IH3⟩ :=
        ih ((db.remove_mmid m).1.remove_hash e.hash).1 (fs.filter (· ≠ e.hash))
          hwf2 hnes2 hndr hq2
      refine ⟨?_, ?_, ?_, ?_⟩
      · intro m2
        rw [hstepeq, IH1 m2]
        by_cases h2 : m2 ∈ rest.map Prod.fst
        · rw [if_pos h2, if_pos (List.mem_cons_of_mem _ h2)]
        · rw [if_neg h2, hDe]
          by_cases h3 : m2 = m
          · subst h3
            rw [getA_removeA_self m2 hnde,
              if_pos (List.mem_cons_self _ _)]
          · rw [getA_removeA_ne db.entries m m2 h3,
              if_neg (by simp [h3, h2])]
      · intro h2 hn2
        have hne2 : h2 ≠ e.hash := by
          intro hEq
          rw [hEq, hs0e] at hn2
          exact Option.noConfusion hn2
        rw [hstepeq]
        refine IH2n h2 ?_
        rw [hDh, getA_removeA_ne _ _ _ hne2, getA_setA_ne _ _ _ _ hne2]
        exact hn2
      · intro h2 s2 hs2
        rw [hstepeq]
        by_cases hcase : h2 = e.hash
        · rw [hcase] at hs2 ⊢
          have hseq : s2 = s := by
            have hx := hs0e.symm.trans hs2
            exact ((Option.some.injEq _ _).mp hx).symm
          subst hseq
          rw [IH2n e.hash (by
            rw [hDh]
            exact getA_removeA_self e.hash (keysA_nodup_setA _ _ hndh))]
          rw [if_pos (fun x hx => by
            rw [hALL x hx]; exact List.mem_cons_self _ _)]
        · have hD2 : getA ((db.remove_mmid m).1.remove_hash e.hash).1.hashes
              h2 = some s2 := by
            rw [hDh, getA_removeA_ne _ _ _ hcase, getA_setA_ne _ _ _ _ hcase]
            exact hs2
          rw [IH2s h2 s2 hD2]
          by_cases hc2 : ∀ x ∈ s2, x ∈ rest.map Prod.fst
          · rw [if_pos hc2, if_pos ((hcondiff h2 s2 hs2 hcase).mp hc2)]
          · rw [if_neg hc2,
              if_neg (fun hca => hc2 ((hcondiff h2 s2 hs2 hcase).mpr hca)),
              hfiltereq h2 s2 hs2 hcase]
      · intro h2
        rw [hstepeq, IH3 h2]
        by_cases hcase : h2 = e.hash
        · rw [hcase]
          constructor
          · rintro ⟨hmem, _⟩
            rw [List.mem_filter] at hmem
            exact absurd hmem.2 (by simp)
          · rintro ⟨hmem, hnex⟩
            exact absurd ⟨s, hs0e, fun x hx => by
              rw [hALL x hx]; exact List.mem_cons_self _ _⟩ hnex
        · have hfseq : (h2 ∈ fs.filter (· ≠ e.hash)) ↔ h2 ∈ fs := by
            rw [List.mem_filter]
            simp [hcase]
          have hDlookup :
              getA ((db.remove_mmid m).1.remove_hash e.hash).1.hashes h2 =
                getA db.hashes h2 := by
            rw [hDh, getA_removeA_ne _ _ _ hcase, getA_setA_ne _ _ _ _ hcase]
          rw [hfseq, hDlookup]
          cases hdb : getA db.hashes h2 with
          | none => simp
          | some s2 =>
            have hl : (∃ s3, (some s2 : Option (List Mmid)) = some s3 ∧
                ∀ x ∈ s3, x ∈ rest.map Prod.fst) ↔
                (∀ x ∈ s2, x ∈ rest.map Prod.fst) := by simp
            have hr : (∃ s3, (some s2 : Option (List Mmid)) = some s3 ∧
                ∀ x ∈ s3, x ∈ m :: rest.map Prod.fst) ↔
                (∀ x ∈ s2, x ∈ m :: rest.map Prod.fst) := by simp
            rw [hl, hr, hcondiff h2 s2 hdb hcase]
    · -- the refs set for `e.hash` stays non-empty: no remove_hash, no
      -- file deletion
      have hflne : s.filter (· ≠ m) ≠ [] := by
        intro hEq
        rw [hEq] at hemp
        exact hemp rfl
      have hstepeq := sweepGo_cons_neg db fs m e.hash rest
        (by rw [hgetd]; exact hemp)
      have hDe : (db.remove_mmid m).1.entries = removeA db.entries m := by
        rw [hdb1]
      have hDh : (db.remove_mmid m).1.hashes =
          setA db.hashes e.hash (s.filter (· ≠ m)) := by
        rw [hdb1]
      have hwf2 : DbWF (db.remove_mmid m).1 :=
        remove_mmid_preserves_wf db m hwfKeep
      have hnes2 : NoEmptySets (db.remove_mmid m).1 := by
        intro p hp
        rw [hDh] at hp
        rcases (mem_setA_iff hndh).mp hp with h1 | ⟨h1, _⟩
        · rw [h1]
          exact hflne
        · exact hnes p h1
      have hq2 : ∀ q2 ∈ rest,
          ∃ e2, getA (db.remove_mmid m).1.entries q2.1 = some e2 ∧
            e2.hash = q2.2 := by
        intro q2 hq2
        obtain ⟨e2, he2, hh2⟩ := hq q2 (List.mem_cons_of_mem _ hq2)
        refine ⟨e2, ?_, hh2⟩
        rw [hDe, getA_removeA_ne db.entries m q2.1 (hq1ne q2 hq2)]
        exact he2
      obtain ⟨IH1, IH2n, IH2s, IH3⟩ :=
        ih (db.remove_mmid m).1 fs hwf2 hnes2 hndr hq2
      have hcondAB : (∀ x ∈ s.filter (· ≠ m), x ∈ rest.map Prod.fst) ↔
          (∀ x ∈ s, x ∈ m :: rest.map Prod.fst) := by
        constructor
        · intro ha x hx
          by_cases hxm : x = m
          · rw [hxm]
            exact List.mem_cons_self _ _
          · exact List.mem_cons_of_mem _
              (ha x (List.mem_filter.mpr ⟨hx, by simp [hxm]⟩))
        · intro ha x hx
          rw [List.mem_filter] at hx
          have hxm : x ≠ m := by simpa using hx.2
          rcases List.mem_cons.mp (ha x hx.1) with h1 | h1
          · exact absurd h1 hxm
          · exact h1
      have hfilterAB : (s.filter (· ≠ m)).filter
            (fun x => x ∉ rest.map Prod.fst) =
          s.filter (fun x => x ∉ m :: rest.map Prod.fst) := by
        rw [List.filter_filter]
        refine List.filter_congr (fun x _ => ?_)
        by_cases h1 : x = m <;> by_cases h2 : x ∈ rest.map Prod.fst <;>
          simp [h1, h2]
      refine ⟨?_, ?_, ?_, ?_⟩
      · intro m2
        rw [hstepeq, IH1 m2]
        by_cases h2 : m2 ∈ rest.map Prod.fst
        · rw [if_pos h2, if_pos (List.mem_cons_of_mem _ h2)]
        · rw [if_neg h2, hDe]
          by_cases h3 : m2 = m
          · subst h3
            rw [getA_removeA_self m2 hnde,
              if_pos (List.mem_cons_self _ _)]
          · rw [getA_removeA_ne db.entries m m2 h3,
              if_neg (by simp [h3, h2])]
      · intro h2 hn2
        have hne2 : h2 ≠ e.hash := by
          intro hEq
          rw [hEq, hs0e] at hn2
          exact Option.noConfusion hn2
        rw [hstepeq]
        refine IH2n h2 ?_
        rw [hDh, getA_setA_ne _ _ _ _ hne2]
        exact hn2
      · intro h2 s2 hs2
        rw [hstepeq]
        by_cases hcase : h2 = e.hash
        · rw [hcase] at hs2 ⊢
          have hseq : s2 = s := by
            have hx := hs0e.symm.trans hs2
            exact ((Option.some.injEq _ _).mp hx).symm
          rw [hseq]
          have hD2 : getA (db.remove_mmid m).1.hashes e.hash =
              some (s.filter (· ≠ m)) := by
            rw [hDh]
            exact getA_setA_self _ _ _
          rw [IH2s e.hash (s.filter (· ≠ m)) hD2]
          by_cases hc2 : ∀ x ∈ s.filter (· ≠ m), x ∈ rest.map Prod.fst
          · rw [if_pos hc2, if_pos (hcondAB.mp hc2)]
          · rw [if_neg hc2, if_neg (fun hca => hc2 (hcondAB.mpr hca)),
              hfilterAB]
        · have hD2 : getA (db.remove_mmid m).1.hashes h2 = some s2 := by
            rw [hDh, getA_setA_ne _ _ _ _ hcase]
            exact hs2
          rw [IH2s h2 s2 hD2]
          by_cases hc2 : ∀ x ∈ s2, x ∈ rest.map Prod.fst
          · rw [if_pos hc2, if_pos ((hcondiff h2 s2 hs2 hcase).mp hc2)]
          · rw [if_neg hc2,
              if_neg (fun hca => hc2 ((hcondiff h2 s2 hs2 hcase).mpr hca)),
              hfiltereq h2 s2 hs2 hcase]
      · intro h2
        rw [hstepeq, IH3 h2]
        by_cases hcase : h2 = e.hash
        · rw [hcase]
          have hD2 : getA (db.remove_mmid m).1.hashes e.hash =
              some (s.filter (· ≠ m)) := by
            rw [hDh]
            exact getA_setA_self _ _ _
          rw [hD2]
          have hl : (∃ s3, (some (s.filter (· ≠ m)) :
              Option (List Mmid)) = some s3 ∧
              ∀ x ∈ s3, x ∈ rest.map Prod.fst) ↔
              (∀ x ∈ s.filter (· ≠ m), x ∈ rest.map Prod.fst) := by simp
          have hr : (∃ s3, getA db.hashes e.hash = some s3 ∧
              ∀ x ∈ s3, x ∈ m :: rest.map Prod.fst) ↔
              (∀ x ∈ s, x ∈ m :: rest.map Prod.fst) := by
            rw [hs0e]
            simp
          rw [hl, hr, hcondAB]
        · have hD2 : getA (db.remove_mmid m).1.hashes h2 =
              getA db.hashes h2 := by
            rw [hDh, getA_setA_ne _ _ _ _ hcase]
          rw [hD2]
          cases hdb : getA db.hashes h2 with
          | none => simp
          | some s2 =>
            have hl : (∃ s3, (some s2 : Option (List Mmid)) = some s3 ∧
                ∀ x ∈ s3, x ∈ rest.map Prod.fst) ↔
                (∀ x ∈ s2, x ∈ rest.map Prod.fst) := by simp
            have hr : (∃ s3, (some s2 : Option (List Mmid)) = some s3 ∧
                ∀ x ∈ s3, x ∈ m :: rest.map Prod.fst) ↔
                (∀ x ∈ s2, x ∈ m :: rest.map Prod.fst) := by simp
            rw [hl, hr, hcondiff h2 s2 hdb hcase]


theorem files_to_remove_sublist (l : List (Mmid × MochiFile)) (now : Int)
    (hkey : ∀ p ∈ l, p.2.mmid = p.1) :
    ((l.filterMap (fun p =>
        if p.2.is_expired now then some (p.2.mmid, p.2.hash) else none)).map
      Prod.fst).Sublist (l.map Prod.fst) := by
  induction l with
  | nil => simp
  | cons p t ih =>
    have hkeyt : ∀ p2 ∈ t, p2.2.mmid = p2.1 :=
      fun p2 h2 => hkey p2 (List.mem_cons_of_mem _ h2)
    by_cases hexp : p.2.is_expired now = true
    · have hstep : (p :: t).filterMap (fun p =>
          if p.2.is_expired now then some (p.2.mmid, p.2.hash) else none) =
          (p.2.mmid, p.2.hash) :: t.filterMap (fun p =>
            if p.2.is_expired now then some (p.2.mmid, p.2.hash) else none) := by
        rw [List.filterMap_cons, if_pos hexp]
      rw [hstep, List.map_cons, List.map_cons]
      rw [show ((p.2.mmid, p.2.hash).1 : Mmid) = p.1 from hkey p
        (List.mem_cons_self _ _)]
      exact (ih hkeyt).cons₂ p.1
    · have hstep : (p :: t).filterMap (fun p =>
          if p.2.is_expired now then some (p.2.mmid, p.2.hash) else none) =
          t.filterMap (fun p =>
            if p.2.is_expired now then some (p.2.mmid, p.2.hash) else none) := by
        rw [List.filterMap_cons, if_neg hexp]
      rw [hstep, List.map_cons]
      exact (ih hkeyt).cons p.1

theorem files_to_remove_mem (db : Mochibase) (now : Int)
    (hnde : (keysA db.entries).Nodup)
    (hkey : ∀ p ∈ db.entries, p.2.mmid = p.1) (m2 : Mmid) :
    (m2 ∈ (db.entries.filterMap (fun p =>
        if p.2.is_expired now then some (p.2.mmid, p.2.hash) else none)).map
      Prod.fst) ↔
      (∃ e, getA db.entries m2 = some e ∧ e.is_expired now = true) := by
  constructor
  · intro hm
    obtain ⟨q, hq, hq1⟩ := List.mem_map.mp hm
    obtain ⟨p, hp, hfp⟩ := List.mem_filterMap.mp hq
    by_cases hexp : p.2.is_expired now = true
    · rw [if_pos hexp] at hfp
      have hq2 : q = (p.2.mmid, p.2.hash) := ((Option.some.injEq _ _).mp hfp).symm
      refine ⟨p.2, ?_, hexp⟩
      have hp1 : p.1 = m2 := by
        rw [← hq1, hq2]
        exact (hkey p hp).symm
      rw [← hp1]
      exact getA_eq_some_of_mem hnde (by simpa using hp)
    · rw [if_neg hexp] at hfp
      exact absurd hfp (by simp)
  · rintro ⟨e, he, hexp⟩
    have hpm : (m2, e) ∈ db.entries := mem_of_getA_eq_some he
    refine List.mem_map.mpr ⟨(e.mmid, e.hash), ?_, ?_⟩
    · refine List.mem_filterMap.mpr ⟨(m2, e), hpm, ?_⟩
      rw [if_pos hexp]
    · exact hkey (m2, e) hpm

theorem files_to_remove_pairs (db : Mochibase) (now : Int)
    (hnde : (keysA db.entries).Nodup)
    (hkey : ∀ p ∈ db.entries, p.2.mmid = p.1) :
    ∀ q ∈ db.entries.filterMap (fun p =>
        if p.2.is_expired now then some (p.2.mmid, p.2.hash) else none),
      ∃ e, getA db.entries q.1 = some e ∧ e.hash = q.2 := by
  intro q hq
  obtain ⟨p, hp, hfp⟩ := List.mem_filterMap.mp hq
  by_cases hexp : p.2.is_expired now = true
  · rw [if_pos hexp] at hfp
    have hq2 : q = (p.2.mmid, p.2.hash) := ((Option.some.injEq _ _).mp hfp).symm
    refine ⟨p.2, ?_, by rw [hq2]⟩
    rw [hq2]
    show getA db.entries p.2.mmid = some p.2
    rw [hkey p hp]
    exact getA_eq_some_of_mem hnde (by simpa using hp)
  · rw [if_neg hexp] at hfp
    exact absurd hfp (by simp)

theorem clean_database_eq (db : Mochibase) (fs : List Hash) (now : Int) :
    clean_database db fs now =
      sweepGo db fs (db.entries.filterMap (fun p =>
        if p.2.is_expired now then some (p.2.mmid, p.2.hash) else none)) := rfl

/-- **C3** (confirmed).  One reaper sweep removes exactly the entries
whose `expiry_datetime` is strictly before the current time, and — for
any blob file whose hash is currently a key of the refs map — deletes
the blob file iff, after those removals, no MMID maps to an entry with
that hash.  In particular, with two entries on the same hash and only
one expired, the entry goes but the blob stays; when the last
reference expires the blob file is deleted. -/
theorem clean_database_spec (db : Mochibase) (fs : List Hash) (now : Int)
    (hwf : DbWF db) (hnes : NoEmptySets db) :
    (∀ m e, getA db.entries m = some e →
      Mochibase.get (clean_database db fs now).1 m =
        (if e.is_expired now = true then none else some e))
    ∧ (∀ m, getA db.entries m = none →
        Mochibase.get (clean_database db fs now).1 m = none)
    ∧ (∀ h, h ∈ fs → getA db.hashes h ≠ none →
        (h ∉ (clean_database db fs now).2 ↔
          (∀ m e, Mochibase.get (clean_database db fs now).1 m = some e →
            e.hash ≠ h))) := by
  have hwfK := hwf
  obtain ⟨hnde, hndh, hset, hkey, hi1, hi2⟩ := hwf
  have hnod : ((db.entries.filterMap (fun p =>
      if p.2.is_expired now then some (p.2.mmid, p.2.hash) else none)).map
        Prod.fst).Nodup :=
    List.Nodup.sublist (files_to_remove_sublist db.entries now hkey) hnde
  obtain ⟨S1, S2n, S2s, S3⟩ :=
    sweepGo_spec (db.entries.filterMap (fun p =>
        if p.2.is_expired now then some (p.2.mmid, p.2.hash) else none))
      db fs hwfK hnes hnod (files_to_remove_pairs db now hnde hkey)
  refine ⟨?_, ?_, ?_⟩
  · intro m e he
    simp only [Mochibase.get, clean_database_eq]
    rw [S1 m]
    by_cases hexp : e.is_expired now = true
    · rw [if_pos ((files_to_remove_mem db now hnde hkey m).mpr ⟨e, he, hexp⟩),
        if_pos hexp]
    · rw [if_neg (fun hm => hexp (by
        obtain ⟨e2, he2, hexp2⟩ := (files_to_remove_mem db now hnde hkey m).mp hm
        rw [he] at he2
        rw [(Option.some.injEq _ _).mp he2]
        exact hexp2)), if_neg hexp]
      exact he
  · intro m hnone
    simp only [Mochibase.get, clean_database_eq]
    rw [S1 m]
    rw [if_neg (fun hm => by
      obtain ⟨e2, he2, _⟩ := (files_to_remove_mem db now hnde hkey m).mp hm
      rw [hnone] at he2
      exact Option.noConfusion he2)]
    exact hnone
  · intro h hfs hkey2
    obtain ⟨s, hs⟩ : ∃ s, getA db.hashes h = some s := by
      cases hg : getA db.hashes h with
      | none => exact absurd hg hkey2
      | some s => exact ⟨s, rfl⟩
    have hiff := S3 h
    constructor
    · intro hnot m e hout hEq
      have hex : ∃ s2, getA db.hashes h = some s2 ∧
          ∀ x ∈ s2, x ∈ (db.entries.filterMap (fun p =>
            if p.2.is_expired now then some (p.2.mmid, p.2.hash) else
              none)).map Prod.fst := by
        by_contra hnex
        rw [clean_database_eq] at hnot
        exact hnot (hiff.mpr ⟨hfs, hnex⟩)
      obtain ⟨s2, hs2, hall⟩ := hex
      have hseq : s2 = s := by
        have hx := hs.symm.trans hs2
        exact ((Option.some.injEq _ _).mp hx).symm
      subst hseq
      simp only [Mochibase.get, clean_database_eq] at hout
      rw [S1 m] at hout
      have hm : m ∉ (db.entries.filterMap (fun p =>
          if p.2.is_expired now then some (p.2.mmid, p.2.hash) else
            none)).map Prod.fst ∧ getA db.entries m = some e := by
        by_cases hmm : m ∈ (db.entries.filterMap (fun p =>
            if p.2.is_expired now then some (p.2.mmid, p.2.hash) else
              none)).map Prod.fst
        · rw [if_pos hmm] at hout
          exact absurd hout (by simp)
        · rw [if_neg hmm] at hout
          exact ⟨hmm, hout⟩
      obtain ⟨s4, hs4, hm4⟩ := hi1 (m, e) (mem_of_getA_eq_some hm.2)
      have hs4e : getA db.hashes h = some s4 := by
        rw [← hEq]
        exact hs4
      have hs4s : s4 = s2 := by
        have hx := hs.symm.trans hs4e
        exact ((Option.some.injEq _ _).mp hx).symm
      exact hm.1 (hall m (hs4s ▸ hm4))
    · intro hforall
      intro hmem
      rw [clean_database_eq] at hmem
      obtain ⟨_, hnex⟩ := hiff.mp hmem
      apply hnex
      refine ⟨s, hs, ?_⟩
      intro x hx
      by_contra hxnot
      obtain ⟨e2, he2, hh2⟩ := hi2 (h, s) (mem_of_getA_eq_some hs) x hx
      have hh2e : e2.hash = h := hh2
      have hout : Mochibase.get (clean_database db fs now).1 x = some e2 := by
        simp only [Mochibase.get, clean_database_eq]
        rw [S1 x, if_neg hxnot]
        exact he2
      exact (hforall x e2 hout) hh2e

/-- **C3** witness: in `dbTwo` at time 100 the entries for `mA`
(expiry 50) and `mC` (expiry 20) are expired while `mB` (expiry 1000)
shares `mA`'s hash.  The sweep removes exactly `mA` and `mC`, keeps
the shared blob (still referenced by `mB`), and deletes `mC`'s blob. -/
theorem clean_database_spec_witness :
    Mochibase.get (clean_database dbTwo [byteHash 0, byteHash 1] 100).1 mA =
      none ∧
    Mochibase.get (clean_database dbTwo [byteHash 0, byteHash 1] 100).1 mB =
      some fileB ∧
    Mochibase.get (clean_database dbTwo [byteHash 0, byteHash 1] 100).1 mC =
      none ∧
    byteHash 0 ∈ (clean_database dbTwo [byteHash 0, byteHash 1] 100).2 ∧
    byteHash 1 ∉ (clean_database dbTwo [byteHash 0, byteHash 1] 100).2 := by
  obtain ⟨P1, P2, P3⟩ :=
    clean_database_spec dbTwo [byteHash 0, byteHash 1] 100 (by decide)
      (by decide)
  have hA : Mochibase.get (clean_database dbTwo [byteHash 0, byteHash 1]
      100).1 mA = none := by
    have h := P1 mA fileA (by decide)
    simpa using h
  have hB : Mochibase.get (clean_database dbTwo [byteHash 0, byteHash 1]
      100).1 mB = some fileB := by
    have h := P1 mB fileB (by decide)
    simpa using h
  have hC : Mochibase.get (clean_database dbTwo [byteHash 0, byteHash 1]
      100).1 mC = none := by
    have h := P1 mC fileC (by decide)
    simpa using h
  refine ⟨hA, hB, hC, ?_, ?_⟩
  · by_contra hnot
    have h := (P3 (byteHash 0) (by decide) (by decide)).mp hnot mB fileB hB
    exact h (by decide)
  · refine (P3 (byteHash 1) (by decide) (by decide)).mpr ?_
    intro m e hout hEq
    have hpm := mem_of_getA_eq_some hout
    have hconc : (clean_database dbTwo [byteHash 0, byteHash 1] 100).1.entries
        = [(mB, fileB)] := by decide
    rw [hconc] at hpm
    rcases List.mem_cons.mp hpm with h1 | h2
    · have h3 : e = fileB := congrArg Prod.snd h1
      rw [h3] at hEq
      exact absurd hEq (by decide)
    · exact absurd h2 (List.not_mem_nil _)

end ConfettiBox
